import Mathlib

/-!
Shallow embedding of the core mechanisms of the `ilmtest-stats` repository:

* the base64url token codec (`b64urlEncode` / `b64urlDecode` in `src/lib/csv.ts`),
* the authenticated, versioned encryption token format (`encrypt` / `decrypt`),
* secret parsing and key initialisation (`parseSecret` / `initSecrets`),
* the canonicalising JSON compression codec (`src/lib/compression.ts`),
* the dictionary normaliser (`normalizeDownloads`),
* the deterministic top-N leaderboard builders (`buildTopAddresses` /
  `buildTopReporters`).

Bytes are modelled as `Nat` values `< 256`, byte buffers as `List Nat`.
External primitives (AES-GCM, HKDF-SHA256, Brotli, `JSON.stringify`/`parse`,
date parsing) live outside the repository; they are modelled as explicit
function parameters, with their library contracts appearing as pointwise
hypotheses of the theorems that need them.
-/

namespace IlmStats

/-! ### Base64url codec

Models `b64urlEncode` / `b64urlDecode` from `src/lib/csv.ts`: encoding is
Node's standard base64 (`Buffer.toString('base64')`) followed by replacing
`+` with dash and slash with underscore and stripping `=` padding; decoding
reverses the replacements, restores padding to a multiple of four, and calls
`Buffer.from(s, 'base64')`.

The composition of Node's standard-alphabet base64 with the `+ -> -`, `/ -> _`
character replacements and padding stripping is modelled directly by an
url-safe alphabet.  Node's `Buffer.from(s, 'base64')` never throws; characters
outside the (url-extended) alphabet — including the `=` padding — are ignored.
That lenient decoder is modelled by filtering the input down to alphabet
characters before regrouping sextets into bytes. -/

/-- The standard base64 alphabet, index `0..63` to character. -/
def stdChar (v : Nat) : Char :=
  if v < 26 then Char.ofNat (65 + v)
  else if v < 52 then Char.ofNat (97 + (v - 26))
  else if v < 62 then Char.ofNat (48 + (v - 52))
  else if v = 62 then '+'
  else '/'

/-- The url-safe alphabet: the standard alphabet composed with the
`+ -> -`, `/ -> _` replacements performed by `b64urlEncode`. -/
def urlChar (v : Nat) : Char :=
  let c := stdChar v
  if c = '+' then '-' else if c = '/' then '_' else c

/-- Inverse alphabet used by the decoder: accepts both the standard and the
url-safe characters (the source first maps `- -> +`, `_ -> /` and then decodes
with Node's base64 decoder, which itself accepts both alphabets).
Characters outside the alphabet decode to `none` and are ignored. -/
def charVal (c : Char) : Option Nat :=
  let n := c.toNat
  if 65 ≤ n ∧ n ≤ 90 then some (n - 65)
  else if 97 ≤ n ∧ n ≤ 122 then some (n - 71)
  else if 48 ≤ n ∧ n ≤ 57 then some (n + 4)
  else if c = '+' ∨ c = '-' then some 62
  else if c = '/' ∨ c = '_' then some 63
  else none

/-- Regroup a byte sequence into base64 sextets, chunking three bytes into
four sextets; a trailing chunk of one byte yields two sextets and of two
bytes yields three (the `=` padding emitted by `Buffer.toString('base64')`
is stripped again by `b64urlEncode`, so it is not modelled). -/
def sextetsOfBytes : List Nat → List Nat
  | [] => []
  | [b0] => [b0 / 4, b0 % 4 * 16]
  | [b0, b1] => [b0 / 4, b0 % 4 * 16 + b1 / 16, b1 % 16 * 4]
  | b0 :: b1 :: b2 :: rest =>
      b0 / 4 :: (b0 % 4 * 16 + b1 / 16) :: (b1 % 16 * 4 + b2 / 64) :: b2 % 64 ::
        sextetsOfBytes rest

/-- Regroup base64 sextets into bytes, four sextets to three bytes; a
trailing group of two sextets yields one byte, of three yields two, and a
dangling single sextet yields nothing. -/
def bytesOfSextets : List Nat → List Nat
  | [] => []
  | [_] => []
  | [s0, s1] => [s0 * 4 + s1 / 16]
  | [s0, s1, s2] => [s0 * 4 + s1 / 16, s1 % 16 * 16 + s2 / 4]
  | s0 :: s1 :: s2 :: s3 :: rest =>
      (s0 * 4 + s1 / 16) :: (s1 % 16 * 16 + s2 / 4) :: (s2 % 4 * 64 + s3) ::
        bytesOfSextets rest

/-- `b64urlEncode` from `src/lib/csv.ts` (also `compression.ts`): base64
encode, url-safe replacements, padding stripped. -/
def b64urlEncode (bytes : List Nat) : String :=
  String.mk ((sextetsOfBytes bytes).map urlChar)

/-- `b64urlDecode` from `src/lib/csv.ts`: url-safe replacements undone,
padding restored, then Node's lenient base64 decode.  Total on every string. -/
def b64urlDecode (s : String) : List Nat :=
  bytesOfSextets (s.data.filterMap charVal)

/-- Every byte value below 256 survives the sextet round trip. -/
theorem bytesOfSextets_sextetsOfBytes (bytes : List Nat)
    (h : ∀ b ∈ bytes, b < 256) :
    bytesOfSextets (sextetsOfBytes bytes) = bytes := by
  induction bytes using sextetsOfBytes.induct with
  | case1 => rfl
  | case2 b0 =>
      have h0 : b0 < 256 := h b0 (by simp)
      simp only [sextetsOfBytes, bytesOfSextets]
      refine List.cons_eq_cons.mpr ⟨by omega, rfl⟩
  | case3 b0 b1 =>
      have h0 : b0 < 256 := h b0 (by simp)
      have h1 : b1 < 256 := h b1 (by simp)
      simp only [sextetsOfBytes, bytesOfSextets]
      refine List.cons_eq_cons.mpr ⟨by omega, ?_⟩
      refine List.cons_eq_cons.mpr ⟨by omega, rfl⟩
  | case4 b0 b1 b2 rest ih =>
      have h0 : b0 < 256 := h b0 (by simp)
      have h1 : b1 < 256 := h b1 (by simp)
      have h2 : b2 < 256 := h b2 (by simp)
      have hrest : ∀ b ∈ rest, b < 256 := fun b hb => h b (by simp [hb])
      simp only [sextetsOfBytes, bytesOfSextets]
      refine List.cons_eq_cons.mpr ⟨by omega, ?_⟩
      refine List.cons_eq_cons.mpr ⟨by omega, ?_⟩
      refine List.cons_eq_cons.mpr ⟨by omega, ih hrest⟩

/-- Every sextet the encoder emits is below 64. -/
theorem sextetsOfBytes_lt (bytes : List Nat) (h : ∀ b ∈ bytes, b < 256) :
    ∀ v ∈ sextetsOfBytes bytes, v < 64 := by
  induction bytes using sextetsOfBytes.induct with
  | case1 => simp [sextetsOfBytes]
  | case2 b0 =>
      have h0 : b0 < 256 := h b0 (by simp)
      simp only [sextetsOfBytes, List.mem_cons, List.mem_singleton]
      rintro v (rfl | rfl | hv) <;> first | omega | simp at hv
  | case3 b0 b1 =>
      have h0 : b0 < 256 := h b0 (by simp)
      have h1 : b1 < 256 := h b1 (by simp)
      simp only [sextetsOfBytes, List.mem_cons, List.mem_singleton]
      rintro v (rfl | rfl | rfl | hv) <;> first | omega | simp at hv
  | case4 b0 b1 b2 rest ih =>
      have h0 : b0 < 256 := h b0 (by simp)
      have h1 : b1 < 256 := h b1 (by simp)
      have h2 : b2 < 256 := h b2 (by simp)
      have hrest : ∀ b ∈ rest, b < 256 := fun b hb => h b (by simp [hb])
      simp only [sextetsOfBytes, List.mem_cons]
      rintro v (rfl | rfl | rfl | rfl | hv)
      · omega
      · omega
      · omega
      · omega
      · exact ih hrest v hv

/-- Decoding the alphabet character of a sextet recovers the sextet. -/
theorem charVal_urlChar : ∀ v < 64, charVal (urlChar v) = some v := by
  decide

/-- Filtering encoded sextet characters back through the inverse alphabet
is the identity. -/
theorem filterMap_charVal_map_urlChar (l : List Nat) (h : ∀ v ∈ l, v < 64) :
    (l.map urlChar).filterMap charVal = l := by
  induction l with
  | nil => rfl
  | cons v rest ih =>
      have hv : v < 64 := h v (by simp)
      have hr : ∀ w ∈ rest, w < 64 := fun w hw => h w (by simp [hw])
      simp [List.filterMap_cons, charVal_urlChar v hv, ih hr]

/-- Base64url round trip: decoding an encoded byte buffer recovers it. -/
theorem b64urlDecode_b64urlEncode (bytes : List Nat)
    (h : ∀ b ∈ bytes, b < 256) :
    b64urlDecode (b64urlEncode bytes) = bytes := by
  show bytesOfSextets ((String.mk ((sextetsOfBytes bytes).map urlChar)).data.filterMap charVal) = bytes
  rw [show (String.mk ((sextetsOfBytes bytes).map urlChar)).data
      = (sextetsOfBytes bytes).map urlChar from rfl,
    filterMap_charVal_map_urlChar _ (sextetsOfBytes_lt bytes h)]
  exact bytesOfSextets_sextetsOfBytes bytes h

/-- Base64url encoding is injective on byte buffers. -/
theorem b64urlEncode_injective (xs ys : List Nat)
    (hx : ∀ b ∈ xs, b < 256) (hy : ∀ b ∈ ys, b < 256)
    (h : b64urlEncode xs = b64urlEncode ys) : xs = ys := by
  have := congrArg b64urlDecode h
  rwa [b64urlDecode_b64urlEncode xs hx, b64urlDecode_b64urlEncode ys hy] at this

/-! ### The authenticated, versioned token format

Models `encrypt` / `decrypt` from `src/lib/csv.ts`.  The AES-256-GCM cipher
is Node's `createCipheriv`/`createDecipheriv`; being an external primitive it
is modelled as an abstract scheme `Gcm` (key, iv, aad, plaintext to
ciphertext-and-tag; decryption returns `none` exactly when tag verification
fails).  The singleton key established by `initSecrets` is passed explicitly. -/

/-- Token format version constant (`VERSION = 1`). -/
def VERSION : Nat := 1

/-- Nonce length (`IV_LEN = 12`, AES-GCM 96-bit IV). -/
def IV_LEN : Nat := 12

/-- Authentication-tag length (`TAG_LEN = 16`, 128-bit tag). -/
def TAG_LEN : Nat := 16

/-- The associated data bound into every tag: the single version byte
(`AAD = Buffer.from([VERSION])`). -/
def AAD : List Nat := [VERSION]

/-- Abstract model of the AES-256-GCM primitive from `node:crypto`:
`enc key iv aad pt` yields the ciphertext and authentication tag;
`dec key iv aad ct tag` yields the plaintext, or `none` when the tag does
not verify. -/
structure Gcm where
  enc : List Nat → List Nat → List Nat → List Nat → List Nat × List Nat
  dec : List Nat → List Nat → List Nat → List Nat → List Nat → Option (List Nat)

/-- Errors thrown by `decrypt` (and `encrypt`). -/
inductive CryptoErr
  | malformedToken
  | unsupportedVersion (v : Nat)
  | authenticationFailed
  deriving DecidableEq, Repr

/-- `encrypt` from `src/lib/csv.ts`: encrypts the plaintext bytes under the
process key with a caller-supplied fresh 12-byte nonce (`randomBytes(IV_LEN)`
modelled as an explicit input) and returns
`b64urlEncode(version || iv || ciphertext || tag)`. -/
def encrypt (G : Gcm) (key iv pt : List Nat) : String :=
  let et := G.enc key iv AAD pt
  b64urlEncode (VERSION :: (iv ++ et.1 ++ et.2))

/-- `decrypt` from `src/lib/csv.ts`: base64url-decodes the token, checks the
minimum length, checks the version byte, splits nonce / ciphertext / tag and
runs authenticated decryption. -/
def decrypt (G : Gcm) (key : List Nat) (token : String) :
    Except CryptoErr (List Nat) :=
  let buf := b64urlDecode token
  if buf.length < 1 + IV_LEN + TAG_LEN then .error .malformedToken
  else
    let version := buf.headD 0
    if version ≠ VERSION then .error (.unsupportedVersion version)
    else
      let iv := (buf.drop 1).take IV_LEN
      let body := buf.drop (1 + IV_LEN)
      if body.length < TAG_LEN then .error .malformedToken
      else
        let ciphertext := body.take (body.length - TAG_LEN)
        let tag := body.drop (body.length - TAG_LEN)
        match G.dec key iv AAD ciphertext tag with
        | some pt => .ok pt
        | none => .error .authenticationFailed

/-- A concrete instance of the abstract cipher interface, used to exercise
the framing theorems on closed inputs: the ciphertext is the plaintext and
the tag is a 16-byte checksum of key, nonce, associated data and ciphertext;
decryption recomputes and compares the tag. -/
def mockGcm : Gcm where
  enc := fun key iv aad pt =>
    (pt, List.replicate 16 ((key.sum + iv.sum + aad.sum + pt.sum) % 256))
  dec := fun key iv aad ct tag =>
    if tag = List.replicate 16 ((key.sum + iv.sum + aad.sum + ct.sum) % 256)
    then some ct else none

/-- Splitting a framed token byte buffer recovers its three components. -/
theorem decrypt_encrypt_layout (G : Gcm) (key iv ct tag pt : List Nat)
    (hivlen : iv.length = IV_LEN) (htaglen : tag.length = TAG_LEN)
    (hivb : ∀ b ∈ iv, b < 256) (hctb : ∀ b ∈ ct, b < 256)
    (htagb : ∀ b ∈ tag, b < 256)
    (hdec : G.dec key iv AAD ct tag = some pt) :
    decrypt G key (b64urlEncode (VERSION :: (iv ++ ct ++ tag))) = .ok pt := by
  have hall : ∀ b ∈ VERSION :: (iv ++ ct ++ tag), b < 256 := by
    intro b hb
    rcases List.mem_cons.mp hb with rfl | hb
    · norm_num [VERSION]
    · rcases List.mem_append.mp hb with hb | hb
      · rcases List.mem_append.mp hb with hb | hb
        · exact hivb b hb
        · exact hctb b hb
      · exact htagb b hb
  have hdecode := b64urlDecode_b64urlEncode _ hall
  unfold decrypt
  rw [hdecode]
  have hlen : (VERSION :: (iv ++ ct ++ tag)).length
      = 1 + IV_LEN + ct.length + TAG_LEN := by
    simp [List.length_append, hivlen, htaglen]; omega
  rw [if_neg (by omega)]
  simp only [List.headD_cons, List.drop_succ_cons, List.drop_zero]
  rw [if_neg (by simp [VERSION])]
  have hassoc : iv ++ ct ++ tag = iv ++ (ct ++ tag) := by
    simp [List.append_assoc]
  rw [hassoc, List.take_left' hivlen]
  have hdropc : List.drop (1 + IV_LEN) (VERSION :: (iv ++ (ct ++ tag)))
      = List.drop IV_LEN (iv ++ (ct ++ tag)) := by
    rw [Nat.add_comm, List.drop_succ_cons]
  have hdrop : (iv ++ (ct ++ tag)).drop IV_LEN = ct ++ tag := by
    rw [← hivlen, List.drop_left]
  rw [hdropc, hdrop]
  have hbodylen : (ct ++ tag).length = ct.length + TAG_LEN := by
    simp [htaglen]
  rw [if_neg (by omega)]
  have hsub : (ct ++ tag).length - TAG_LEN = ct.length := by omega
  rw [hsub, List.take_left, List.drop_left, hdec]

/-- C1 (`decrypt(encrypt(s)) == s`, fresh nonces give distinct tokens).
The AES-GCM correctness contract of `node:crypto` is the pointwise
hypothesis `hdec`; the fresh random nonces of the two calls are the explicit
distinct `iv`/`iv'`. -/
theorem c1_encrypt_roundtrip_and_fresh_nonce (G : Gcm) (key iv iv' pt : List Nat)
    (hivlen : iv.length = IV_LEN) (hivb : ∀ b ∈ iv, b < 256)
    (hctb : ∀ b ∈ (G.enc key iv AAD pt).1, b < 256)
    (htaglen : (G.enc key iv AAD pt).2.length = TAG_LEN)
    (htagb : ∀ b ∈ (G.enc key iv AAD pt).2, b < 256)
    (hdec : G.dec key iv AAD (G.enc key iv AAD pt).1 (G.enc key iv AAD pt).2
      = some pt)
    (hivlen' : iv'.length = IV_LEN) (hivb' : ∀ b ∈ iv', b < 256)
    (hctb' : ∀ b ∈ (G.enc key iv' AAD pt).1, b < 256)
    (htagb' : ∀ b ∈ (G.enc key iv' AAD pt).2, b < 256)
    (hne : iv ≠ iv') :
    decrypt G key (encrypt G key iv pt) = .ok pt
    ∧ encrypt G key iv pt ≠ encrypt G key iv' pt := by
  constructor
  · exact decrypt_encrypt_layout G key iv _ _ pt hivlen htaglen hivb hctb htagb hdec
  · intro heq
    have hbytes₁ : ∀ b ∈ VERSION :: (iv ++ (G.enc key iv AAD pt).1
        ++ (G.enc key iv AAD pt).2), b < 256 := by
      intro b hb
      rcases List.mem_cons.mp hb with rfl | hb
      · norm_num [VERSION]
      · rcases List.mem_append.mp hb with hb | hb
        · rcases List.mem_append.mp hb with hb | hb
          · exact hivb b hb
          · exact hctb b hb
        · exact htagb b hb
    have hbytes₂ : ∀ b ∈ VERSION :: (iv' ++ (G.enc key iv' AAD pt).1
        ++ (G.enc key iv' AAD pt).2), b < 256 := by
      intro b hb
      rcases List.mem_cons.mp hb with rfl | hb
      · norm_num [VERSION]
      · rcases List.mem_append.mp hb with hb | hb
        · rcases List.mem_append.mp hb with hb | hb
          · exact hivb' b hb
          · exact hctb' b hb
        · exact htagb' b hb
    have hinj := b64urlEncode_injective _ _ hbytes₁ hbytes₂ heq
    have htail := List.cons_injective hinj
    have : iv = iv' := by
      have h₁ := congrArg (List.take IV_LEN) htail
      rw [List.append_assoc, List.append_assoc,
        List.take_left' hivlen, List.take_left' hivlen'] at h₁
      exact h₁
    exact hne this

/-- Closed witness for `c1_encrypt_roundtrip_and_fresh_nonce`, instantiated
with the mock cipher, an all-zero and a distinct nonce. -/
theorem c1_witness :
    decrypt mockGcm [7] (encrypt mockGcm [7] (List.replicate 12 0) [104, 105])
      = .ok [104, 105]
    ∧ encrypt mockGcm [7] (List.replicate 12 0) [104, 105]
      ≠ encrypt mockGcm [7] (1 :: List.replicate 11 0) [104, 105] :=
  c1_encrypt_roundtrip_and_fresh_nonce mockGcm [7] (List.replicate 12 0)
    (1 :: List.replicate 11 0) [104, 105]
    (by decide) (by decide) (by decide) (by decide) (by decide) (by decide)
    (by decide) (by decide) (by decide) (by decide) (by decide)

/-- C6 (error taxonomy and precedence of `decrypt`).  Three parts:
tokens whose decoded length is below `1 + IV_LEN + TAG_LEN` fail with
`MalformedToken`; a wrong leading byte fails with `UnsupportedTokenVersion`
and the outcome does not depend on the cipher or the key, so no
authenticated decryption can have been attempted; and re-encoding any
buffer whose version byte was changed to `v ≠ VERSION` (in particular a
valid token so tampered) fails with `UnsupportedTokenVersion v`. -/
theorem c6_decrypt_error_precedence :
    (∀ (G : Gcm) (key : List Nat) (t : String),
      (b64urlDecode t).length < 1 + IV_LEN + TAG_LEN →
      decrypt G key t = .error .malformedToken)
    ∧ (∀ (G G' : Gcm) (key key' : List Nat) (t : String),
      ¬ (b64urlDecode t).length < 1 + IV_LEN + TAG_LEN →
      (b64urlDecode t).headD 0 ≠ VERSION →
      decrypt G key t = .error (.unsupportedVersion ((b64urlDecode t).headD 0))
      ∧ decrypt G key t = decrypt G' key' t)
    ∧ (∀ (G : Gcm) (key rest : List Nat) (v : Nat),
      v ≠ VERSION → v < 256 → (∀ b ∈ rest, b < 256) →
      IV_LEN + TAG_LEN ≤ rest.length →
      decrypt G key (b64urlEncode (v :: rest)) = .error (.unsupportedVersion v)) := by
  refine ⟨?_, ?_, ?_⟩
  · intro G key t hlen
    unfold decrypt
    rw [if_pos hlen]
  · intro G G' key key' t hlen hv
    constructor
    · unfold decrypt
      rw [if_neg hlen, if_pos hv]
    · unfold decrypt
      rw [if_neg hlen, if_pos hv, if_neg hlen, if_pos hv]
  · intro G key rest v hv hvb hrb hlen
    have hall : ∀ b ∈ v :: rest, b < 256 := by
      intro b hb
      rcases List.mem_cons.mp hb with rfl | hb
      · exact hvb
      · exact hrb b hb
    unfold decrypt
    rw [b64urlDecode_b64urlEncode _ hall]
    rw [if_neg (by simp only [List.length_cons]; omega)]
    rw [List.headD_cons, if_pos hv]

/-- Closed witness for `c6_decrypt_error_precedence`: a too-short token, a
version byte of `2` where the outcome is cipher- and key-independent, and a
valid-length buffer whose version byte was changed to `0`. -/
theorem c6_witness :
    decrypt mockGcm [7] "AAAA" = .error .malformedToken
    ∧ (decrypt mockGcm [7] (b64urlEncode (2 :: List.replicate 28 0))
        = .error (.unsupportedVersion 2)
      ∧ decrypt mockGcm [7] (b64urlEncode (2 :: List.replicate 28 0))
        = decrypt mockGcm [9] (b64urlEncode (2 :: List.replicate 28 0)))
    ∧ decrypt mockGcm [7] (b64urlEncode (0 :: List.replicate 28 5))
      = .error (.unsupportedVersion 0) := by
  refine ⟨?_, ?_, ?_⟩
  · exact c6_decrypt_error_precedence.1 mockGcm [7] "AAAA" (by decide)
  · have h := c6_decrypt_error_precedence.2.1 mockGcm mockGcm [7] [9]
      (b64urlEncode (2 :: List.replicate 28 0)) (by decide) (by decide)
    have hhead : (b64urlDecode (b64urlEncode (2 :: List.replicate 28 0))).headD 0
        = 2 := by decide
    exact ⟨by rw [h.1, hhead], h.2⟩
  · exact c6_decrypt_error_precedence.2.2 mockGcm [7] (List.replicate 28 5) 0
      (by decide) (by decide) (by decide) (by decide)

/-- C10 (safety of `decrypt`): the base64url decode is a total function, so
for every input string `decrypt` either fails with one of the three declared
errors or returns a plaintext; and it returns a plaintext only when the
underlying authenticated decryption verified the tag (`G.dec` returned
`some`) on the nonce / ciphertext / tag slices of the decoded token under
the version-byte associated data. -/
theorem c10_decrypt_total_and_authenticated (G : Gcm) (key : List Nat)
    (t : String) :
    decrypt G key t = .error .malformedToken
    ∨ (∃ v, v ≠ VERSION ∧ decrypt G key t = .error (.unsupportedVersion v))
    ∨ decrypt G key t = .error .authenticationFailed
    ∨ (∃ pt, decrypt G key t = .ok pt
        ∧ G.dec key (((b64urlDecode t).drop 1).take IV_LEN) AAD
            (((b64urlDecode t).drop (1 + IV_LEN)).take
              (((b64urlDecode t).drop (1 + IV_LEN)).length - TAG_LEN))
            (((b64urlDecode t).drop (1 + IV_LEN)).drop
              (((b64urlDecode t).drop (1 + IV_LEN)).length - TAG_LEN))
          = some pt) := by
  unfold decrypt
  by_cases h1 : (b64urlDecode t).length < 1 + IV_LEN + TAG_LEN
  · left; rw [if_pos h1]
  · rw [if_neg h1]
    by_cases h2 : (b64urlDecode t).headD 0 ≠ VERSION
    · right; left
      exact ⟨(b64urlDecode t).headD 0, h2, by rw [if_pos h2]⟩
    · rw [if_neg h2]
      by_cases h3 : ((b64urlDecode t).drop (1 + IV_LEN)).length < TAG_LEN
      · left; rw [if_pos h3]
      · rw [if_neg h3]
        rcases hdec : G.dec key (((b64urlDecode t).drop 1).take IV_LEN) AAD
            (((b64urlDecode t).drop (1 + IV_LEN)).take
              (((b64urlDecode t).drop (1 + IV_LEN)).length - TAG_LEN))
            (((b64urlDecode t).drop (1 + IV_LEN)).drop
              (((b64urlDecode t).drop (1 + IV_LEN)).length - TAG_LEN))
          with _ | pt
        · right; right; left; simp only [hdec]
        · right; right; right
          exact ⟨pt, by simp only [hdec], rfl⟩

/-! ### Secret parsing and key initialisation

Models `parseSecret` and `initSecrets` from `src/lib/csv.ts`.  HKDF-SHA256
(`hkdfSync` from `node:crypto`) is an external primitive, modelled as an
abstract function parameter `hkdf ikm salt info len`.  UTF-8 encoding is
Lean's `String.toUTF8`. -/

/-- UTF-8 encoding of one code point. -/
def utf8Char (c : Char) : List Nat :=
  let n := c.toNat
  if n < 0x80 then [n]
  else if n < 0x800 then [0xC0 + n / 0x40, 0x80 + n % 0x40]
  else if n < 0x10000 then
    [0xE0 + n / 0x1000, 0x80 + n / 0x40 % 0x40, 0x80 + n % 0x40]
  else
    [0xF0 + n / 0x40000, 0x80 + n / 0x1000 % 0x40, 0x80 + n / 0x40 % 0x40,
      0x80 + n % 0x40]

/-- The UTF-8 bytes of a string (`Buffer.from(s, 'utf8')`). -/
def utf8Bytes (s : String) : List Nat :=
  (s.data.map utf8Char).flatten

/-- JavaScript's `String.prototype.trim`: strip leading and trailing
whitespace. -/
def jsTrim (s : String) : String :=
  String.mk (((s.data.dropWhile Char.isWhitespace).reverse.dropWhile
    Char.isWhitespace).reverse)

/-- The fixed, non-secret HKDF salt constant
(`HKDF_SALT = Buffer.from('security.ts:hkdf-salt:v1')`). -/
def HKDF_SALT : List Nat := utf8Bytes "security.ts:hkdf-salt:v1"

/-- The fixed, non-secret HKDF context label
(`HKDF_INFO = Buffer.from('aes-gcm:content-key:v1')`). -/
def HKDF_INFO : List Nat := utf8Bytes "aes-gcm:content-key:v1"

/-- Hex-digit test used by the `parseSecret` regex `[0-9a-fA-F]`. -/
def isHexDigit (c : Char) : Bool :=
  ('0' ≤ c ∧ c ≤ '9') ∨ ('a' ≤ c ∧ c ≤ 'f') ∨ ('A' ≤ c ∧ c ≤ 'F')

/-- Numeric value of one hex digit. -/
def hexVal (c : Char) : Nat :=
  if '0' ≤ c ∧ c ≤ '9' then c.toNat - 48
  else if 'a' ≤ c ∧ c ≤ 'f' then c.toNat - 87
  else c.toNat - 55

/-- `Buffer.from(s, 'hex')` on an even-length all-hex string: consecutive
digit pairs become bytes. -/
def hexDecode : List Char → List Nat
  | c1 :: c2 :: rest => (hexVal c1 * 16 + hexVal c2) :: hexDecode rest
  | _ => []

/-- `parseSecret` from `src/lib/csv.ts`: all-hex even-length strings decode
as hex; otherwise a base64/base64url decode is attempted (the source first
maps dash to `+` and underscore to slash and then calls the lenient
`Buffer.from(s, 'base64')`, which never throws — both steps are modelled by
`b64urlDecode`), falling through to raw UTF-8 bytes when that yields zero
bytes. -/
def parseSecret (s : String) : List Nat :=
  if s.data ≠ [] ∧ s.data.all isHexDigit ∧ s.data.length % 2 = 0 then
    hexDecode s.data
  else
    let b := b64urlDecode s
    if 0 < b.length then b else utf8Bytes s

/-- Key normalisation step of `initSecrets`: a 32-byte secret is used
directly, anything else is fed through HKDF-SHA256 with the fixed salt and
context label to derive a 32-byte key. -/
def keyOf (hkdf : List Nat → List Nat → List Nat → Nat → List Nat)
    (secret : List Nat) : List Nat :=
  if secret.length = 32 then secret else hkdf secret HKDF_SALT HKDF_INFO 32

/-- The error thrown by `initSecrets` when no secret material is present. -/
inductive SecretErr
  | missingSecret
  deriving DecidableEq, Repr

/-- `initSecrets` from `src/lib/csv.ts` as an explicit state transition on
the singleton `KEY`: the input `encryptionSecret` is the effective secret
material (explicit argument, or the `ENCRYPTION_SECRET` environment default,
`none` when neither is present); the result is the new key state paired with
the error thrown, if any. -/
def initSecretsRun (hkdf : List Nat → List Nat → List Nat → Nat → List Nat)
    (encryptionSecret : Option String) (key : Option (List Nat)) :
    Option (List Nat) × Option SecretErr :=
  match key with
  | some k => (some k, none)
  | none =>
      let raw := jsTrim (encryptionSecret.getD "")
      if raw = "" then (none, some .missingSecret)
      else (some (keyOf hkdf (parseSecret raw)), none)

/-- C5 (key state machine `Uninitialized -> Keyed`): once a key is
established every further `initSecrets` call — with any argument — is a
no-op leaving the key unchanged; in the uninitialised state, secret material
that is empty after trimming fails with `MissingSecret` and leaves the state
uninitialised, and non-empty material transitions to `Keyed`. -/
theorem c5_initSecrets_state_machine
    (hkdf : List Nat → List Nat → List Nat → Nat → List Nat) :
    (∀ (s : Option String) (k : List Nat),
      initSecretsRun hkdf s (some k) = (some k, none))
    ∧ (∀ s : Option String, jsTrim (s.getD "") = "" →
      initSecretsRun hkdf s none = (none, some .missingSecret))
    ∧ (∀ s : Option String, jsTrim (s.getD "") ≠ "" →
      initSecretsRun hkdf s none
        = (some (keyOf hkdf (parseSecret (jsTrim (s.getD "")))), none)) := by
  refine ⟨fun s k => rfl, fun s h => ?_, fun s h => ?_⟩
  · simp [initSecretsRun, h]
  · simp [initSecretsRun, h]

/-- Mock key-derivation function used to instantiate theorems that take the
external HKDF primitive as a parameter. -/
def mockHkdf (ikm salt info : List Nat) (len : Nat) : List Nat :=
  List.replicate len ((ikm.sum + salt.sum + info.sum) % 256)

/-- Closed witness for `c5_initSecrets_state_machine`: a keyed state ignores
a different secret; an absent and a whitespace secret fail with
`MissingSecret`; a hex secret transitions to `Keyed`. -/
theorem c5_witness :
    initSecretsRun mockHkdf (some "other-secret") (some [1, 2, 3])
      = (some [1, 2, 3], none)
    ∧ initSecretsRun mockHkdf none none = (none, some .missingSecret)
    ∧ initSecretsRun mockHkdf (some "  ") none = (none, some .missingSecret)
    ∧ initSecretsRun mockHkdf (some "41424344") none
      = (some (keyOf mockHkdf (parseSecret "41424344")), none) :=
  ⟨(c5_initSecrets_state_machine mockHkdf).1 (some "other-secret") [1, 2, 3],
   (c5_initSecrets_state_machine mockHkdf).2.1 none (by decide),
   (c5_initSecrets_state_machine mockHkdf).2.1 (some "  ") (by decide),
   (c5_initSecrets_state_machine mockHkdf).2.2 (some "41424344") (by decide)⟩

/-- C7 (secret parse priority and key derivation): even-length all-hex
strings decode as hex pairs; otherwise the (never-throwing, url-safe
accepting) base64 decode is used when it yields at least one byte; otherwise
the raw UTF-8 bytes; and the parsed secret is used directly as the key when
exactly 32 bytes long, else the 32-byte key is derived via HKDF-SHA256 with
the fixed salt and context-label constants. -/
theorem c7_parseSecret_priority
    (hkdf : List Nat → List Nat → List Nat → Nat → List Nat) (s : String)
    (sec : List Nat) :
    (s.data ≠ [] ∧ s.data.all isHexDigit ∧ s.data.length % 2 = 0 →
      parseSecret s = hexDecode s.data)
    ∧ (¬(s.data ≠ [] ∧ s.data.all isHexDigit ∧ s.data.length % 2 = 0) →
      0 < (b64urlDecode s).length → parseSecret s = b64urlDecode s)
    ∧ (¬(s.data ≠ [] ∧ s.data.all isHexDigit ∧ s.data.length % 2 = 0) →
      (b64urlDecode s).length = 0 → parseSecret s = utf8Bytes s)
    ∧ (charVal '-' = charVal '+' ∧ charVal '_' = charVal '/')
    ∧ (sec.length = 32 → keyOf hkdf sec = sec)
    ∧ (sec.length ≠ 32 → keyOf hkdf sec = hkdf sec HKDF_SALT HKDF_INFO 32) := by
  refine ⟨fun h => ?_, fun h hb => ?_, fun h hb => ?_, by decide,
    fun h => ?_, fun h => ?_⟩
  · simp only [parseSecret, if_pos h]
  · simp only [parseSecret, if_neg h, if_pos hb]
  · simp only [parseSecret, if_neg h]
    rw [if_neg (by omega)]
  · simp [keyOf, h]
  · simp [keyOf, h]

/-- Closed witness for `c7_parseSecret_priority`: the hex secret
`"41424344"`, the base64url secret `"QUJDRA"`, a secret `"!!!"` that decodes
to zero bytes and falls through to UTF-8, a 32-byte secret used directly and
a 4-byte secret fed to HKDF. -/
theorem c7_witness :
    parseSecret "41424344" = [65, 66, 67, 68]
    ∧ parseSecret "QUJDRA" = [65, 66, 67, 68]
    ∧ parseSecret "!!!" = [33, 33, 33]
    ∧ keyOf mockHkdf (List.replicate 32 7) = List.replicate 32 7
    ∧ keyOf mockHkdf [65, 66, 67, 68]
      = mockHkdf [65, 66, 67, 68] HKDF_SALT HKDF_INFO 32 := by
  refine ⟨?_, ?_, ?_, ?_, ?_⟩
  · rw [(c7_parseSecret_priority mockHkdf "41424344" []).1 (by decide)]
    decide
  · rw [(c7_parseSecret_priority mockHkdf "QUJDRA" []).2.1 (by decide) (by decide)]
    decide
  · rw [(c7_parseSecret_priority mockHkdf "!!!" []).2.2.1 (by decide) (by decide)]
    decide
  · exact (c7_parseSecret_priority mockHkdf "" (List.replicate 32 7)).2.2.2.2.1
      (by decide)
  · exact (c7_parseSecret_priority mockHkdf "" [65, 66, 67, 68]).2.2.2.2.2
      (by decide)

/-! ### Code-point lexicographic string comparison

JavaScript's default `Array.prototype.sort()` (used on dictionary keys and
canonicalized object keys) compares strings by code units.  This is
modelled by a three-way lexicographic comparison of the code points of
`String.data` (code units and code points agree on the Basic Multilingual
Plane). -/

/-- Three-way lexicographic comparison of character lists. -/
def listCmp : List Char → List Char → Ordering
  | [], [] => .eq
  | [], _ :: _ => .lt
  | _ :: _, [] => .gt
  | c :: cs, d :: ds =>
      if c < d then .lt else if d < c then .gt else listCmp cs ds

/-- The non-strict sort relation `a ≤ b` induced by `listCmp`. -/
def strLe (a b : String) : Prop := listCmp a.data b.data ≠ .gt

instance : DecidableRel strLe := fun a b => by
  unfold strLe; infer_instance

/-- Swapping the arguments of `listCmp` swaps the ordering. -/
theorem listCmp_swap (a : List Char) : ∀ b, listCmp b a = (listCmp a b).swap := by
  induction a with
  | nil => intro b; cases b <;> rfl
  | cons x xs ih =>
      intro b
      cases b with
      | nil => rfl
      | cons y ys =>
          simp only [listCmp]
          rcases lt_trichotomy x y with h | h | h
          · simp [h, asymm h, Ordering.swap]
          · subst h
            simp [lt_irrefl, ih ys]
          · simp [h, asymm h, Ordering.swap]

/-- `listCmp` returns `eq` exactly on equal lists. -/
theorem listCmp_eq_iff (a : List Char) : ∀ b, listCmp a b = .eq ↔ a = b := by
  induction a with
  | nil => intro b; cases b <;> simp [listCmp]
  | cons x xs ih =>
      intro b
      cases b with
      | nil => simp [listCmp]
      | cons y ys =>
          simp only [listCmp]
          rcases lt_trichotomy x y with h | h | h
          · rw [if_pos h]
            simp [ne_of_lt h]
          · subst h
            rw [if_neg (lt_irrefl x), if_neg (lt_irrefl x)]
            simp [ih ys]
          · rw [if_neg (asymm h), if_pos h]
            simp [(ne_of_lt h).symm]

/-- Transitivity of the `listCmp`-induced order. -/
theorem listCmp_trans (a : List Char) : ∀ b c, listCmp a b ≠ .gt →
    listCmp b c ≠ .gt → listCmp a c ≠ .gt := by
  induction a with
  | nil => intro b c _ _; cases c <;> simp [listCmp]
  | cons x xs ih =>
      intro b c h1 h2
      cases b with
      | nil => exact absurd rfl h1
      | cons y ys =>
          cases c with
          | nil => exact absurd rfl h2
          | cons z zs =>
              simp only [listCmp] at h1 h2 ⊢
              rcases lt_trichotomy x y with hxy | hxy | hxy
              · rcases lt_trichotomy y z with hyz | hyz | hyz
                · rw [if_pos (lt_trans hxy hyz)]
                  exact Ordering.noConfusion
                · subst hyz
                  rw [if_pos hxy]
                  exact Ordering.noConfusion
                · rw [if_neg (asymm hyz), if_pos hyz] at h2
                  exact absurd rfl h2
              · subst hxy
                rw [if_neg (lt_irrefl x), if_neg (lt_irrefl x)] at h1
                rcases lt_trichotomy x z with hxz | hxz | hxz
                · rw [if_pos hxz]
                  exact Ordering.noConfusion
                · subst hxz
                  rw [if_neg (lt_irrefl x), if_neg (lt_irrefl x)] at h2 ⊢
                  exact ih ys zs h1 h2
                · rw [if_neg (asymm hxz), if_pos hxz] at h2
                  exact absurd rfl h2
              · rw [if_neg (asymm hxy), if_pos hxy] at h1
                exact absurd rfl h1

instance : IsTotal String strLe :=
  ⟨fun a b => by
    unfold strLe
    rcases h : listCmp a.data b.data with _ | _ | _
    · exact Or.inl (by simp [h])
    · exact Or.inl (by simp [h])
    · refine Or.inr ?_
      rw [listCmp_swap, h]
      simp [Ordering.swap]⟩

instance : IsTrans String strLe :=
  ⟨fun a b c h1 h2 => listCmp_trans a.data b.data c.data h1 h2⟩

instance : IsAntisymm String strLe :=
  ⟨fun a b h1 h2 => by
    unfold strLe at h1 h2
    rw [listCmp_swap] at h2
    have : listCmp a.data b.data = .eq := by
      rcases h : listCmp a.data b.data with _ | _ | _
      · rw [h] at h2
        exact absurd rfl h2
      · rfl
      · exact absurd h h1
    exact String.ext ((listCmp_eq_iff a.data b.data).mp this)⟩

/-- The strict companion relation: `a` sorts strictly before `b`. -/
def strLt (a b : String) : Prop := listCmp a.data b.data = .lt

/-- A weak comparison between distinct strings is strict. -/
theorem strLt_of_strLe_of_ne {a b : String} (hle : strLe a b) (hne : a ≠ b) :
    strLt a b := by
  unfold strLe at hle
  unfold strLt
  rcases h : listCmp a.data b.data with _ | _ | _
  · rfl
  · exact absurd (String.ext ((listCmp_eq_iff a.data b.data).mp h)) hne
  · exact absurd h hle

/-! ### JSON values, canonicalization and the compression codec

Models `canonicalize`, `compressJson` and `decompressJson` from
`src/lib/compression.ts`.  JavaScript runtime values are modelled by `JVal`:
`obj` is a plain object (prototype exactly `Object.prototype`) with
insertion-ordered keys; every non-plain, non-array value that is not a JSON
primitive (dates, class instances) is an opaque `other` value.  Numbers are
modelled as integers — none of the properties verified here depend on float
semantics.  Brotli (`node:zlib`) and `JSON.stringify`/`JSON.parse` are
external primitives, modelled as the abstract `Codec` fields. -/

/-- A JavaScript runtime value as seen by the codec. -/
inductive JVal where
  | null
  | bool (b : Bool)
  | num (n : Int)
  | str (s : String)
  | arr (xs : List JVal)
  | obj (kvs : List (String × JVal))
  | other (tag : Nat)

/-- Ordering used by `Object.keys(v).sort()`: pairs compared by key with
the default code-point string comparison. -/
def keyLe (p q : String × JVal) : Prop := strLe p.1 q.1

instance : DecidableRel keyLe := fun p q => by
  unfold keyLe; infer_instance

instance : IsTotal (String × JVal) keyLe :=
  ⟨fun a b => IsTotal.total (r := strLe) a.1 b.1⟩

instance : IsTrans (String × JVal) keyLe :=
  ⟨fun _ _ _ h1 h2 => IsTrans.trans (r := strLe) _ _ _ h1 h2⟩

/-- `Object.keys(v).sort()` applied to an insertion-ordered pair list:
sort the pairs by key. -/
def sortPairs (kvs : List (String × JVal)) : List (String × JVal) :=
  kvs.insertionSort keyLe

/-- `canonicalize` from `src/lib/compression.ts`: arrays map recursively
preserving element order; plain objects emit their keys in sorted order,
recursing into each value; everything else (null, primitives, dates, class
instances) is returned unchanged. -/
def canonicalize : JVal → JVal
  | .arr xs => .arr (xs.attach.map fun x => canonicalize x.1)
  | .obj kvs => .obj ((sortPairs kvs).attach.map fun p => (p.1.1, canonicalize p.1.2))
  | v => v
termination_by v => sizeOf v
decreasing_by
  · have := List.sizeOf_lt_of_mem x.2
    simp only [JVal.arr.sizeOf_spec]
    omega
  · have hmem : p.1 ∈ kvs := by
      have hperm := List.perm_insertionSort keyLe kvs
      exact hperm.mem_iff.mp p.2
    have := List.sizeOf_lt_of_mem hmem
    have hp : sizeOf p.1 = 1 + sizeOf p.1.1 + sizeOf p.1.2 := rfl
    simp only [JVal.obj.sizeOf_spec]
    omega

/-- Unfolding `canonicalize` on arrays. -/
theorem canonicalize_arr (xs : List JVal) :
    canonicalize (.arr xs) = .arr (xs.map canonicalize) := by
  rw [canonicalize]
  congr 1
  rw [List.map_attach]
  exact List.pmap_eq_map _ canonicalize xs _

/-- Unfolding `canonicalize` on plain objects. -/
theorem canonicalize_obj (kvs : List (String × JVal)) :
    canonicalize (.obj kvs)
      = .obj ((sortPairs kvs).map fun p => (p.1, canonicalize p.2)) := by
  rw [canonicalize]
  congr 1
  rw [List.map_attach]
  exact List.pmap_eq_map _ (fun p => (p.1, canonicalize p.2)) (sortPairs kvs) _

/-- C8 (shape of canonicalization): plain objects are rewritten with their
keys in sorted lexicographic order (a permutation of the original pairs),
recursing into each value; arrays map canonicalization over their elements
preserving order; and null, primitives and non-plain values (dates, class
instances) are returned unchanged. -/
theorem c8_canonicalize_shape :
    (∀ kvs : List (String × JVal),
      canonicalize (.obj kvs)
        = .obj ((sortPairs kvs).map fun p => (p.1, canonicalize p.2))
      ∧ ((sortPairs kvs).map Prod.fst).Sorted strLe
      ∧ (sortPairs kvs).Perm kvs)
    ∧ (∀ xs : List JVal, canonicalize (.arr xs) = .arr (xs.map canonicalize))
    ∧ canonicalize .null = .null
    ∧ (∀ b, canonicalize (.bool b) = .bool b)
    ∧ (∀ n, canonicalize (.num n) = .num n)
    ∧ (∀ s, canonicalize (.str s) = .str s)
    ∧ (∀ t, canonicalize (.other t) = .other t) := by
  refine ⟨fun kvs => ⟨canonicalize_obj kvs, ?_, List.perm_insertionSort keyLe kvs⟩,
    canonicalize_arr, by simp [canonicalize], fun b => by simp [canonicalize],
    fun n => by simp [canonicalize], fun s => by simp [canonicalize],
    fun t => by simp [canonicalize]⟩
  have hs : (sortPairs kvs).Sorted keyLe :=
    List.sorted_insertionSort keyLe kvs
  exact List.Pairwise.map Prod.fst (fun a b hab => hab) hs

/-- Canonicalization is idempotent: a value whose mapping keys are already
recursively sorted is left unchanged by another pass. -/
theorem canonicalize_idem (v : JVal) :
    canonicalize (canonicalize v) = canonicalize v := by
  induction v using canonicalize.induct with
  | case1 xs ih =>
      rw [canonicalize_arr, canonicalize_arr, List.map_map]
      exact congrArg JVal.arr (List.map_congr_left (fun a ha => ih ⟨a, ha⟩))
  | case2 kvs ih =>
      rw [canonicalize_obj, canonicalize_obj]
      have hsorted : ((sortPairs kvs).map fun p => (p.1, canonicalize p.2)).Sorted keyLe := by
        rw [List.Sorted, List.pairwise_map]
        exact List.sorted_insertionSort keyLe kvs
      rw [show sortPairs ((sortPairs kvs).map fun p => (p.1, canonicalize p.2))
          = (sortPairs kvs).map fun p => (p.1, canonicalize p.2) from
        List.Sorted.insertionSort_eq hsorted]
      rw [List.map_map]
      refine congrArg JVal.obj (List.map_congr_left fun p hp => ?_)
      show (p.1, canonicalize (canonicalize p.2)) = (p.1, canonicalize p.2)
      rw [ih ⟨p, hp⟩]
  | case3 v h1 h2 =>
      cases v with
      | arr xs => exact absurd rfl (h1 xs)
      | obj kvs => exact absurd rfl (h2 kvs)
      | null => simp [canonicalize]
      | bool b => simp [canonicalize]
      | num n => simp [canonicalize]
      | str s => simp [canonicalize]
      | other t => simp [canonicalize]

/-- Abstract model of the external serialisation and compression
primitives used by `compressJson` / `decompressJson`:
`stringify`/`parse` are `JSON.stringify`/`JSON.parse` (`parse` returns
`none` when it throws), `compress`/`decompress` are
`brotliCompressSync`/`brotliDecompressSync` over UTF-8 text
(`decompress` returns `none` on a corrupt stream). -/
structure Codec where
  stringify : JVal → String
  parse : String → Option JVal
  compress : String → List Nat
  decompress : List Nat → Option String

/-- `compressJson` from `src/lib/compression.ts`: canonicalize when
requested (default on), serialise, Brotli-compress. -/
def compressJson (C : Codec) (v : JVal) (canonical : Bool) : List Nat :=
  C.compress (C.stringify (if canonical then canonicalize v else v))

/-- `decompressJson` from `src/lib/compression.ts`: Brotli-decompress then
parse; the decoder does not canonicalize. -/
def decompressJson (C : Codec) (buf : List Nat) : Option JVal :=
  (C.decompress buf).bind C.parse

/-- Equality of two runtime values *as JSON values*: mappings are unordered,
so two values are the same JSON value exactly when recursively sorting all
mapping keys yields identical trees. -/
def jsonEquiv (a b : JVal) : Prop :=
  canonicalize a = canonicalize b

/-- C3 (codec round trip): with the Brotli and JSON primitives satisfying
their library contracts at the relevant inputs, `decompressValue` of
`compressValue` returns the input itself for `canonical=false`, and for
`canonical=true` returns a value equal to the input as a JSON value. -/
theorem c3_compressJson_roundtrip (C : Codec) (v : JVal)
    (hdateq : C.decompress (C.compress (C.stringify v)) = some (C.stringify v))
    (hparse : C.parse (C.stringify v) = some v)
    (hdateqc : C.decompress (C.compress (C.stringify (canonicalize v)))
      = some (C.stringify (canonicalize v)))
    (hparsec : C.parse (C.stringify (canonicalize v))
      = some (canonicalize v)) :
    decompressJson C (compressJson C v false) = some v
    ∧ ∃ w, decompressJson C (compressJson C v true) = some w
        ∧ jsonEquiv w v := by
  constructor
  · simp only [decompressJson, compressJson, Bool.false_eq_true, if_false,
      hdateq, Option.some_bind, hparse]
  · refine ⟨canonicalize v, ?_, canonicalize_idem v⟩
    simp only [decompressJson, compressJson, if_true, hdateqc,
      Option.some_bind, hparsec]

/-- A concrete codec instance for the closed witness: constant functions
satisfying the pointwise contracts at the witness value. -/
def mockCodec : Codec where
  stringify := fun _ => "3"
  parse := fun _ => some (.num 3)
  compress := fun _ => [51]
  decompress := fun _ => some "3"

/-- Closed witness for `c3_compressJson_roundtrip` at the value `3`. -/
theorem c3_witness :
    decompressJson mockCodec (compressJson mockCodec (.num 3) false)
      = some (.num 3)
    ∧ ∃ w, decompressJson mockCodec (compressJson mockCodec (.num 3) true)
        = some w ∧ jsonEquiv w (.num 3) := by
  have hc : canonicalize (.num 3) = .num 3 := by simp [canonicalize]
  exact c3_compressJson_roundtrip mockCodec (.num 3) (by simp [mockCodec])
    (by simp [mockCodec]) (by rw [hc]; simp [mockCodec])
    (by rw [hc]; simp [mockCodec])

/-! ### Dictionary normaliser

Models `normalizeDownloads` (the BlackBerry download normaliser): phase one
collects, per categorical column, the distinct non-empty trimmed values in
first-seen order (a JS `Map` with a counter whose interim values are never
used); the keys are then sorted (`Array.from(map.keys()).sort()`, JS default
string sort, modelled by Lean's code-point `≤` on `String`) and assigned
consecutive ids `i + 1` in sorted order.  Phase two re-walks all records,
skips any record with a blank required field, looks every trimmed field up
in the final maps and emits a normalised record when all six ids are
truthy.  Date parsing (`new Date(s).getTime()`) is external, modelled by
the parameter `parseDate`. -/

/-- One raw download CSV record (the `Info` row type). -/
structure Info where
  ProductName : String
  FileBundleName : String
  Version : String
  DateTime : String
  DeviceModel : String
  OSVersion : String
  Carrier : String
  Locale : String
  Country : String

/-- Phase-one collection of the distinct non-empty trimmed values of one
column, in first-seen order (the insertion order of the JS `Map`). -/
def collectUnique (values : List String) : List String :=
  values.foldl
    (fun acc v0 =>
      let v := jsTrim v0
      if v ≠ "" ∧ v ∉ acc then acc ++ [v] else acc)
    []

/-- The final id mapping of one column: distinct values sorted, value `i`
(0-based) of the sorted array mapped to id `i + 1`. -/
def dictOf (values : List String) : List (String × Nat) :=
  ((collectUnique values).insertionSort strLe).enumFrom 1 |>.map
    (fun p => (p.2, p.1))

/-- The inverse dictionary (id to raw value), serialised alongside the
forward one. -/
def invertDict (d : List (String × Nat)) : List (Nat × String) :=
  d.map (fun p => (p.2, p.1))

/-- Membership in the phase-one collection: exactly the non-empty trimmed
values of the column. -/
theorem mem_collectUnique_aux (l : List String) (acc : List String)
    (v : String) :
    v ∈ l.foldl
      (fun acc v0 =>
        let w := jsTrim v0
        if w ≠ "" ∧ w ∉ acc then acc ++ [w] else acc)
      acc
    ↔ v ∈ acc ∨ (v ≠ "" ∧ v ∈ l.map jsTrim) := by
  induction l generalizing acc with
  | nil => simp
  | cons x rest ih =>
      simp only [List.foldl_cons, List.map_cons, List.mem_cons, ih]
      by_cases hx : jsTrim x ≠ "" ∧ jsTrim x ∉ acc
      · rw [if_pos hx]
        simp only [List.mem_append, List.mem_singleton]
        constructor
        · rintro ((hv | rfl) | hr)
          · exact Or.inl hv
          · exact Or.inr ⟨hx.1, Or.inl rfl⟩
          · exact Or.inr ⟨hr.1, Or.inr hr.2⟩
        · rintro (hv | ⟨hne, rfl | hr⟩)
          · exact Or.inl (Or.inl hv)
          · exact Or.inl (Or.inr rfl)
          · exact Or.inr ⟨hne, hr⟩
      · rw [if_neg hx]
        constructor
        · rintro (hv | hr)
          · exact Or.inl hv
          · exact Or.inr ⟨hr.1, Or.inr hr.2⟩
        · rintro (hv | ⟨hne, rfl | hr⟩)
          · exact Or.inl hv
          · rcases not_and_or.mp hx with h | h
            · exact absurd hne (by simpa using h)
            · exact Or.inl (by simpa using h)
          · exact Or.inr ⟨hne, hr⟩

/-- Membership characterisation of `collectUnique`. -/
theorem mem_collectUnique (l : List String) (v : String) :
    v ∈ collectUnique l ↔ v ≠ "" ∧ v ∈ l.map jsTrim := by
  rw [collectUnique, mem_collectUnique_aux]
  simp

/-- The phase-one collection never repeats a value. -/
theorem nodup_collectUnique_aux (l : List String) (acc : List String)
    (hacc : acc.Nodup) :
    (l.foldl
      (fun acc v0 =>
        let w := jsTrim v0
        if w ≠ "" ∧ w ∉ acc then acc ++ [w] else acc)
      acc).Nodup := by
  induction l generalizing acc with
  | nil => exact hacc
  | cons x rest ih =>
      simp only [List.foldl_cons]
      by_cases hx : jsTrim x ≠ "" ∧ jsTrim x ∉ acc
      · rw [if_pos hx]
        refine ih _ (List.Nodup.append hacc (List.nodup_singleton _) ?_)
        intro a ha hb
        rw [List.mem_singleton] at hb
        subst hb
        exact hx.2 ha
      · rw [if_neg hx]
        exact ih _ hacc

/-- `collectUnique` yields a duplicate-free list. -/
theorem nodup_collectUnique (l : List String) : (collectUnique l).Nodup :=
  nodup_collectUnique_aux l [] List.nodup_nil

/-- The sorted distinct-value list is invariant under permutation of the
raw column values. -/
theorem sortedUnique_perm_invariant (l1 l2 : List String) (hperm : l1.Perm l2) :
    (collectUnique l1).insertionSort strLe
      = (collectUnique l2).insertionSort strLe := by
  have hcu : (collectUnique l1).Perm (collectUnique l2) :=
    (List.perm_ext_iff_of_nodup (nodup_collectUnique l1)
      (nodup_collectUnique l2)).mpr fun v => by
        rw [mem_collectUnique, mem_collectUnique, (hperm.map jsTrim).mem_iff]
  exact List.eq_of_perm_of_sorted
    ((List.perm_insertionSort _ _).trans
      (hcu.trans (List.perm_insertionSort _ _).symm))
    (List.sorted_insertionSort _ _) (List.sorted_insertionSort _ _)

/-- C2 (dictionary assignment is a pure function of the distinct-value
set): permuting the batch of raw categorical values leaves both the forward
and the inverse dictionary identical; ids are the consecutive integers
`1, …, n` assigned in ascending lexicographic order of the keys, which are
exactly the distinct non-empty trimmed values. -/
theorem c2_dictionary_pure_function_of_set (l1 l2 : List String)
    (hperm : l1.Perm l2) :
    dictOf l1 = dictOf l2
    ∧ invertDict (dictOf l1) = invertDict (dictOf l2)
    ∧ (dictOf l1).map Prod.snd = List.range' 1 (collectUnique l1).length
    ∧ ((dictOf l1).map Prod.fst).Sorted strLt
    ∧ (∀ v, v ∈ (dictOf l1).map Prod.fst ↔ v ≠ "" ∧ v ∈ l1.map jsTrim) := by
  have hdict : dictOf l1 = dictOf l2 := by
    unfold dictOf
    rw [sortedUnique_perm_invariant l1 l2 hperm]
  have hkeys : (dictOf l1).map Prod.fst
      = (collectUnique l1).insertionSort strLe := by
    unfold dictOf
    rw [List.map_map]
    exact List.enumFrom_map_snd 1 _
  refine ⟨hdict, by rw [hdict], ?_, ?_, ?_⟩
  · unfold dictOf
    rw [List.map_map]
    have : (List.enumFrom 1 ((collectUnique l1).insertionSort strLe)).map
        (Prod.snd ∘ fun p => (p.2, p.1))
        = (List.enumFrom 1 ((collectUnique l1).insertionSort strLe)).map
          Prod.fst := rfl
    rw [this, List.enumFrom_map_fst,
      ((List.perm_insertionSort strLe (collectUnique l1)).length_eq)]
  · rw [hkeys]
    have hsor := List.sorted_insertionSort strLe (collectUnique l1)
    have hnd := (List.perm_insertionSort strLe
      (collectUnique l1)).nodup_iff.mpr (nodup_collectUnique l1)
    exact List.Pairwise.imp₂ (fun a b hle hne => strLt_of_strLe_of_ne hle hne)
      hsor hnd
  · intro v
    rw [hkeys, (List.perm_insertionSort strLe (collectUnique l1)).mem_iff,
      mem_collectUnique]

/-- Closed witness for `c2_dictionary_pure_function_of_set` on the spec's
scenario batch, with the resulting dictionary evaluated explicitly. -/
theorem c2_witness :
    dictOf ["b@x.com", "a@x.com", "a@x.com"]
      = dictOf ["a@x.com", "a@x.com", "b@x.com"]
    ∧ dictOf ["b@x.com", "a@x.com", "a@x.com"]
      = [("a@x.com", 1), ("b@x.com", 2)] :=
  ⟨(c2_dictionary_pure_function_of_set ["b@x.com", "a@x.com", "a@x.com"]
      ["a@x.com", "a@x.com", "b@x.com"] (by decide)).1,
   by decide⟩

/-- The keys of a dictionary are the sorted distinct values. -/
theorem dictOf_keys (l : List String) :
    (dictOf l).map Prod.fst = (collectUnique l).insertionSort strLe := by
  unfold dictOf
  rw [List.map_map]
  exact List.enumFrom_map_snd 1 _

/-- Membership in the dictionary keys: exactly the non-empty trimmed
values. -/
theorem mem_dictOf_keys (l : List String) (v : String) :
    v ∈ (dictOf l).map Prod.fst ↔ v ≠ "" ∧ v ∈ l.map jsTrim := by
  rw [dictOf_keys, (List.perm_insertionSort strLe (collectUnique l)).mem_iff,
    mem_collectUnique]

/-- Every id a dictionary assigns is at least 1. -/
theorem dictOf_id_pos (l : List String) (v : String) (id : Nat)
    (h : (v, id) ∈ dictOf l) : 1 ≤ id := by
  unfold dictOf at h
  rw [List.mem_map] at h
  obtain ⟨p, hp, hpe⟩ := h
  have : p.1 ∈ (List.enumFrom 1
      ((collectUnique l).insertionSort strLe)).map Prod.fst :=
    List.mem_map_of_mem Prod.fst hp
  rw [List.enumFrom_map_fst, List.mem_range'] at this
  obtain ⟨i, _, hi⟩ := this
  have hid : p.1 = id := congrArg Prod.snd hpe
  omega

/-! ### The normalisation pass of `normalizeDownloads`

Phase two of `normalizeDownloads`: walk all records, trim the six required
categorical fields, `continue` (silently skip) when any is blank, look each
up in the final id maps and emit a normalised record when every id is
truthy. -/

/-- A normalised download record. -/
structure NormalizedRecord where
  ProductName : String
  FileBundleName : String
  VersionId : Nat
  DateTime : Int
  DeviceId : Nat
  OSId : Nat
  CarrierId : Nat
  LocaleId : Nat
  CountryId : Nat
  deriving DecidableEq

/-- The six final id maps (`appVersionToId`, `deviceToId`, `osToId`,
`localeToId`, `countryToId`, `carrierToId`), each built by `dictOf` over
its column. -/
structure Dicts where
  versions : List (String × Nat)
  devices : List (String × Nat)
  osVersions : List (String × Nat)
  locales : List (String × Nat)
  countries : List (String × Nat)
  carriers : List (String × Nat)

/-- The id maps `normalizeDownloads` builds from the full record batch. -/
def dictsOf (records : List Info) : Dicts where
  versions := dictOf (records.map (·.Version))
  devices := dictOf (records.map (·.DeviceModel))
  osVersions := dictOf (records.map (·.OSVersion))
  locales := dictOf (records.map (·.Locale))
  countries := dictOf (records.map (·.Country))
  carriers := dictOf (records.map (·.Carrier))

/-- `Map.get` on an id map: the id of the first entry whose key matches. -/
def dictLookup (d : List (String × Nat)) (v : String) : Option Nat :=
  (d.find? (fun p => p.1 == v)).map (·.2)

/-- The skip test of the normalisation loop: all six required categorical
fields are non-blank after trimming (the source skips on
`!version || !device || !os || !locale || !country || !carrier`). -/
def rowValid (r : Info) : Bool :=
  (jsTrim r.Version != "") && (jsTrim r.DeviceModel != "")
    && (jsTrim r.OSVersion != "") && (jsTrim r.Locale != "")
    && (jsTrim r.Country != "") && (jsTrim r.Carrier != "")

/-- The normalised record built from a valid row (field for field as the
source pushes it; `Math.floor(new Date(s).getTime() / 1000)` is
`(parseDate s).fdiv 1000` with the external date parser as a parameter). -/
def toNormalized (parseDate : String → Int) (D : Dicts) (r : Info) :
    NormalizedRecord where
  ProductName := r.ProductName
  FileBundleName := r.FileBundleName
  VersionId := (dictLookup D.versions (jsTrim r.Version)).getD 0
  DateTime := (parseDate r.DateTime).fdiv 1000
  DeviceId := (dictLookup D.devices (jsTrim r.DeviceModel)).getD 0
  OSId := (dictLookup D.osVersions (jsTrim r.OSVersion)).getD 0
  CarrierId := (dictLookup D.carriers (jsTrim r.Carrier)).getD 0
  LocaleId := (dictLookup D.locales (jsTrim r.Locale)).getD 0
  CountryId := (dictLookup D.countries (jsTrim r.Country)).getD 0

/-- The per-record normalisation loop of `normalizeDownloads`: skip rows
with a blank required field; look the trimmed fields up; emit when every id
is truthy (defined and non-zero, mirroring JS truthiness). -/
def normalizeLoop (parseDate : String → Int) (D : Dicts) :
    List Info → List NormalizedRecord
  | [] => []
  | r :: rest =>
      let version := jsTrim r.Version
      let device := jsTrim r.DeviceModel
      let os := jsTrim r.OSVersion
      let locale := jsTrim r.Locale
      let country := jsTrim r.Country
      let carrier := jsTrim r.Carrier
      if version = "" ∨ device = "" ∨ os = "" ∨ locale = "" ∨ country = ""
          ∨ carrier = "" then
        normalizeLoop parseDate D rest
      else
        match dictLookup D.versions version, dictLookup D.devices device,
          dictLookup D.osVersions os, dictLookup D.locales locale,
          dictLookup D.countries country, dictLookup D.carriers carrier with
        | some vi, some di, some oi, some li, some ci, some cri =>
            if vi ≠ 0 ∧ di ≠ 0 ∧ oi ≠ 0 ∧ li ≠ 0 ∧ ci ≠ 0 ∧ cri ≠ 0 then
              { ProductName := r.ProductName
                FileBundleName := r.FileBundleName
                VersionId := vi
                DateTime := (parseDate r.DateTime).fdiv 1000
                DeviceId := di
                OSId := oi
                CarrierId := cri
                LocaleId := li
                CountryId := ci } :: normalizeLoop parseDate D rest
            else normalizeLoop parseDate D rest
        | _, _, _, _, _, _ => normalizeLoop parseDate D rest

/-- The record list emitted by phase two of `normalizeDownloads` (before
the date sort, which permutes but neither adds nor removes records). -/
def normalizeDownloadsRecords (parseDate : String → Int)
    (records : List Info) : List NormalizedRecord :=
  normalizeLoop parseDate (dictsOf records) records

/-- A value among the keys of an id map is found by lookup, with its id. -/
theorem dictLookup_of_mem_keys (d : List (String × Nat)) (v : String)
    (h : v ∈ d.map Prod.fst) :
    ∃ id, dictLookup d v = some id ∧ (v, id) ∈ d := by
  induction d with
  | nil => simp at h
  | cons p t ih =>
      by_cases hk : p.1 = v
      · refine ⟨p.2, ?_, ?_⟩
        · unfold dictLookup
          rw [List.find?_cons_of_pos _ (by simp [hk])]
          rfl
        · exact List.mem_cons.mpr (Or.inl (by rw [← hk]))
      · have hmem : v ∈ t.map Prod.fst := by
          rcases List.mem_cons.mp h with h' | h'
          · exact absurd h'.symm hk
          · exact h'
        obtain ⟨id, hl, hm⟩ := ih hmem
        refine ⟨id, ?_, List.mem_cons_of_mem _ hm⟩
        unfold dictLookup at hl ⊢
        rw [List.find?_cons_of_neg _ (by simp [hk])]
        exact hl

/-- The normalisation loop is the filter of valid rows mapped through the
record builder, provided every valid row's trimmed fields resolve to a
non-zero id. -/
theorem normalizeLoop_eq_filter_map (parseDate : String → Int) (D : Dicts)
    (l : List Info)
    (h : ∀ r ∈ l, rowValid r = true →
      (∃ i, dictLookup D.versions (jsTrim r.Version) = some i ∧ i ≠ 0)
      ∧ (∃ i, dictLookup D.devices (jsTrim r.DeviceModel) = some i ∧ i ≠ 0)
      ∧ (∃ i, dictLookup D.osVersions (jsTrim r.OSVersion) = some i ∧ i ≠ 0)
      ∧ (∃ i, dictLookup D.locales (jsTrim r.Locale) = some i ∧ i ≠ 0)
      ∧ (∃ i, dictLookup D.countries (jsTrim r.Country) = some i ∧ i ≠ 0)
      ∧ (∃ i, dictLookup D.carriers (jsTrim r.Carrier) = some i ∧ i ≠ 0)) :
    normalizeLoop parseDate D l
      = (l.filter rowValid).map (toNormalized parseDate D) := by
  induction l with
  | nil => rfl
  | cons r rest ih =>
      have hrest := fun r' hr' => h r' (List.mem_cons_of_mem r hr')
      by_cases hv : rowValid r = true
      · obtain ⟨⟨vi, hvi, hvi0⟩, ⟨di, hdi, hdi0⟩, ⟨oi, hoi, hoi0⟩,
          ⟨li, hli, hli0⟩, ⟨ci, hci, hci0⟩, ⟨cri, hcri, hcri0⟩⟩ :=
          h r (List.mem_cons_self r rest) hv
        have hne : ¬(jsTrim r.Version = "" ∨ jsTrim r.DeviceModel = ""
            ∨ jsTrim r.OSVersion = "" ∨ jsTrim r.Locale = ""
            ∨ jsTrim r.Country = "" ∨ jsTrim r.Carrier = "") := by
          simp only [rowValid, Bool.and_eq_true, bne_iff_ne, ne_eq] at hv
          tauto
        rw [show normalizeLoop parseDate D (r :: rest)
            = if jsTrim r.Version = "" ∨ jsTrim r.DeviceModel = ""
                ∨ jsTrim r.OSVersion = "" ∨ jsTrim r.Locale = ""
                ∨ jsTrim r.Country = "" ∨ jsTrim r.Carrier = "" then
                normalizeLoop parseDate D rest
              else
                match dictLookup D.versions (jsTrim r.Version),
                  dictLookup D.devices (jsTrim r.DeviceModel),
                  dictLookup D.osVersions (jsTrim r.OSVersion),
                  dictLookup D.locales (jsTrim r.Locale),
                  dictLookup D.countries (jsTrim r.Country),
                  dictLookup D.carriers (jsTrim r.Carrier) with
                | some vi, some di, some oi, some li, some ci, some cri =>
                    if vi ≠ 0 ∧ di ≠ 0 ∧ oi ≠ 0 ∧ li ≠ 0 ∧ ci ≠ 0 ∧ cri ≠ 0 then
                      { ProductName := r.ProductName
                        FileBundleName := r.FileBundleName
                        VersionId := vi
                        DateTime := (parseDate r.DateTime).fdiv 1000
                        DeviceId := di
                        OSId := oi
                        CarrierId := cri
                        LocaleId := li
                        CountryId := ci } :: normalizeLoop parseDate D rest
                    else normalizeLoop parseDate D rest
                | _, _, _, _, _, _ => normalizeLoop parseDate D rest
          from rfl]
        rw [if_neg hne, hvi, hdi, hoi, hli, hci, hcri]
        show (if vi ≠ 0 ∧ di ≠ 0 ∧ oi ≠ 0 ∧ li ≠ 0 ∧ ci ≠ 0 ∧ cri ≠ 0 then
            { ProductName := r.ProductName
              FileBundleName := r.FileBundleName
              VersionId := vi
              DateTime := (parseDate r.DateTime).fdiv 1000
              DeviceId := di
              OSId := oi
              CarrierId := cri
              LocaleId := li
              CountryId := ci } :: normalizeLoop parseDate D rest
          else normalizeLoop parseDate D rest) = _
        rw [if_pos (show vi ≠ 0 ∧ di ≠ 0 ∧ oi ≠ 0 ∧ li ≠ 0 ∧ ci ≠ 0 ∧ cri ≠ 0
            from ⟨hvi0, hdi0, hoi0, hli0, hci0, hcri0⟩),
          List.filter_cons_of_pos hv, List.map_cons, ih hrest]
        congr 1
        simp only [toNormalized, hvi, hdi, hoi, hli, hci, hcri,
          Option.getD_some]
      · have hor : jsTrim r.Version = "" ∨ jsTrim r.DeviceModel = ""
            ∨ jsTrim r.OSVersion = "" ∨ jsTrim r.Locale = ""
            ∨ jsTrim r.Country = "" ∨ jsTrim r.Carrier = "" := by
          simp only [rowValid, Bool.and_eq_true, bne_iff_ne, ne_eq] at hv
          tauto
        rw [show normalizeLoop parseDate D (r :: rest)
            = if jsTrim r.Version = "" ∨ jsTrim r.DeviceModel = ""
                ∨ jsTrim r.OSVersion = "" ∨ jsTrim r.Locale = ""
                ∨ jsTrim r.Country = "" ∨ jsTrim r.Carrier = "" then
                normalizeLoop parseDate D rest
              else
                match dictLookup D.versions (jsTrim r.Version),
                  dictLookup D.devices (jsTrim r.DeviceModel),
                  dictLookup D.osVersions (jsTrim r.OSVersion),
                  dictLookup D.locales (jsTrim r.Locale),
                  dictLookup D.countries (jsTrim r.Country),
                  dictLookup D.carriers (jsTrim r.Carrier) with
                | some vi, some di, some oi, some li, some ci, some cri =>
                    if vi ≠ 0 ∧ di ≠ 0 ∧ oi ≠ 0 ∧ li ≠ 0 ∧ ci ≠ 0 ∧ cri ≠ 0 then
                      { ProductName := r.ProductName
                        FileBundleName := r.FileBundleName
                        VersionId := vi
                        DateTime := (parseDate r.DateTime).fdiv 1000
                        DeviceId := di
                        OSId := oi
                        CarrierId := cri
                        LocaleId := li
                        CountryId := ci } :: normalizeLoop parseDate D rest
                    else normalizeLoop parseDate D rest
                | _, _, _, _, _, _ => normalizeLoop parseDate D rest
          from rfl]
        rw [if_pos hor, List.filter_cons_of_neg (by simp [hv]), ih hrest]

/-- C9 (malformed rows are silently dropped, valid rows emitted exactly
once): the emitted record list is exactly the valid rows, in order, each
mapped to its normalised record — a row with any blank required
categorical field contributes nothing, and no sentinel id is ever
emitted. -/
theorem c9_normalize_drops_blank_rows (parseDate : String → Int)
    (records : List Info) :
    normalizeDownloadsRecords parseDate records
      = (records.filter rowValid).map
          (toNormalized parseDate (dictsOf records)) := by
  apply normalizeLoop_eq_filter_map
  intro r hr hvalid
  simp only [rowValid, Bool.and_eq_true, bne_iff_ne, ne_eq] at hvalid
  obtain ⟨⟨⟨⟨⟨hvv, hvd⟩, hvo⟩, hvl⟩, hvc⟩, hvcr⟩ := hvalid
  have get1 : ∀ (get : Info → String), jsTrim (get r) ≠ "" →
      ∃ i, dictLookup (dictOf (records.map get)) (jsTrim (get r)) = some i
        ∧ i ≠ 0 := by
    intro get hne
    have hmem : jsTrim (get r) ∈ (dictOf (records.map get)).map Prod.fst :=
      (mem_dictOf_keys _ _).mpr ⟨hne, by
        rw [List.map_map]
        exact List.mem_map_of_mem (jsTrim ∘ get) hr⟩
    obtain ⟨id, hl, hm⟩ := dictLookup_of_mem_keys _ _ hmem
    have := dictOf_id_pos _ _ _ hm
    exact ⟨id, hl, by omega⟩
  exact ⟨get1 (·.Version) hvv, get1 (·.DeviceModel) hvd,
    get1 (·.OSVersion) hvo, get1 (·.Locale) hvl, get1 (·.Country) hvc,
    get1 (·.Carrier) hvcr⟩

/-! ### Top-N leaderboard builders

Models `buildTopAddresses` and `buildTopReporters` from the auto-block
statistics module.  A JS `Map` keyed by the lower-cased address (resp. the
reporter id) is modelled as an insertion-ordered list of aggregates carrying
their key; a `Set<number>` as a duplicate-free list.  The source's
get-or-create-then-mutate step is collapsed into "update in place when the
key is present, else append a fresh aggregate holding the first entry".
`Array.prototype.sort(cmp)` with a consistent comparator is modelled by
`insertionSort` over `cmp ≤ 0`.  The address tie-break
`a.address.localeCompare(b.address)` calls default-locale Intl collation —
an external primitive, so it is an explicit parameter
`lc : String → String → Int` of the comparator and builder, constrained
only by the hypotheses each theorem states. -/

/-- One reported address row (`user_id,address,count`). -/
structure ReportedAddress where
  user_id : Nat
  address : String
  count : Nat
  deriving DecidableEq

/-- One reported keyword row (`user_id,term,count`). -/
structure ReportedKeyword where
  user_id : Nat
  term : String
  count : Nat
  deriving DecidableEq

/-- JavaScript's `String.prototype.toLowerCase()`. -/
def jsToLower (s : String) : String :=
  String.mk (s.data.map Char.toLower)

/-- `Set.add`: insert if absent. -/
def setInsert (s : List Nat) (u : Nat) : List Nat :=
  if u ∈ s then s else s ++ [u]

/-- Per-address aggregate (`AggregateBase & { address }`), carrying its Map
key (the lower-cased address). -/
structure AddrAgg where
  key : String
  address : String
  reports : Nat
  reporters : List Nat
  blocks : Nat
  deriving DecidableEq

/-- Folding one reported address into an existing aggregate. -/
def updateAddrAgg (a : AddrAgg) (e : ReportedAddress) : AddrAgg :=
  { a with reports := a.reports + 1, blocks := a.blocks + e.count,
           reporters := setInsert a.reporters e.user_id }

/-- One step of the `buildTopAddresses` aggregation loop: update the
aggregate under the lower-cased address key, or start one from this
entry. -/
def addrStep (acc : List AddrAgg) (e : ReportedAddress) : List AddrAgg :=
  let k := jsToLower e.address
  if acc.any (fun a => a.key == k) then
    acc.map (fun a => if a.key == k then updateAddrAgg a e else a)
  else
    acc ++ [{ key := k, address := e.address, reports := 1,
              reporters := [e.user_id], blocks := e.count }]

/-- The aggregation loop of `buildTopAddresses`: group by lower-cased
address, first-seen casing kept as the display address. -/
def aggAddresses (l : List ReportedAddress) : List AddrAgg :=
  l.foldl addrStep []

/-- One emitted leaderboard row (`AutoBlockTopAddress`). -/
structure TopAddress where
  address : String
  reports : Nat
  reporters : Nat
  blocks : Nat
  averageBlocksPerReport : ℚ
  deriving DecidableEq

/-- `Number.parseFloat(x.toFixed(2))` on a non-negative ratio, modelled on
rationals: round to two decimal places. -/
def round2 (q : ℚ) : ℚ := ((round (q * 100) : ℤ) : ℚ) / 100

/-- The leaderboard row of one aggregate. -/
def toTopAddress (a : AddrAgg) : TopAddress where
  address := a.address
  reports := a.reports
  reporters := a.reporters.length
  blocks := a.blocks
  averageBlocksPerReport :=
    if 0 < a.reports then round2 ((a.blocks : ℚ) / a.reports) else 0

/-- Sign of an `Ordering`. -/
def ordInt : Ordering → Int
  | .lt => -1
  | .eq => 0
  | .gt => 1

/-- The `buildTopAddresses` comparator: blocks descending, then reports
descending, then `a.address.localeCompare(b.address)` ascending.
`localeCompare` is default-locale Intl collation — an external primitive,
passed in as the comparison function `lc`.  ECMA-402 only guarantees that a
collator's compare function induces a consistent total preorder: it may
return `0` on distinct strings (e.g. canonically equivalent composed and
decomposed forms, which remain distinct group keys after `toLowerCase`), so
no antisymmetry is built in. -/
def cmpAddr (lc : String → String → Int) (a b : TopAddress) : Int :=
  if b.blocks ≠ a.blocks then (b.blocks : Int) - a.blocks
  else if b.reports ≠ a.reports then (b.reports : Int) - a.reports
  else lc a.address b.address

/-- The sort relation induced by the comparator. -/
def addrLe (lc : String → String → Int) (a b : TopAddress) : Prop :=
  cmpAddr lc a b ≤ 0

instance (lc : String → String → Int) : DecidableRel (addrLe lc) :=
  fun a b => by unfold addrLe; infer_instance

/-- `buildTopAddresses`: aggregate, build rows, sort with the comparator
under the process collation `lc`, truncate to the first 10. -/
def buildTopAddresses (lc : String → String → Int)
    (l : List ReportedAddress) : List TopAddress :=
  (((aggAddresses l).map toTopAddress).insertionSort (addrLe lc)).take 10

/-- A collation instance that compares code points: total, transitive and
antisymmetric (it distinguishes any two distinct strings). -/
def lcCodePoint (x y : String) : Int := ordInt (listCmp x.data y.data)

/-- A collation-shaped comparison with the properties ECMA-402 requires of
a collator (total and transitive) that nevertheless returns `0` on distinct
equal-length strings — the way real collations return `0` on distinct
canonically equivalent strings. -/
def lcLen (x y : String) : Int := (x.data.length : Int) - y.data.length

/-- Per-reporter aggregate of `buildTopReporters`. -/
structure RepAgg where
  user_id : Nat
  reportedAddresses : Nat
  reportedKeywords : Nat
  zeroBlockReports : Nat
  blocksFromAddresses : Nat
  blocksFromKeywords : Nat
  deriving DecidableEq

/-- Folding one reported address into a reporter aggregate. -/
def updateRepAddr (a : RepAgg) (e : ReportedAddress) : RepAgg :=
  { a with reportedAddresses := a.reportedAddresses + 1,
           blocksFromAddresses := a.blocksFromAddresses + e.count,
           zeroBlockReports :=
             if e.count = 0 then a.zeroBlockReports + 1
             else a.zeroBlockReports }

/-- Folding one reported keyword into a reporter aggregate. -/
def updateRepKw (a : RepAgg) (e : ReportedKeyword) : RepAgg :=
  { a with reportedKeywords := a.reportedKeywords + 1,
           blocksFromKeywords := a.blocksFromKeywords + e.count,
           zeroBlockReports :=
             if e.count = 0 then a.zeroBlockReports + 1
             else a.zeroBlockReports }

/-- A fresh reporter aggregate. -/
def freshRepAgg (uid : Nat) : RepAgg where
  user_id := uid
  reportedAddresses := 0
  reportedKeywords := 0
  zeroBlockReports := 0
  blocksFromAddresses := 0
  blocksFromKeywords := 0

/-- One get-or-create-then-fold pass of `buildTopReporters` over a list of
report rows, grouped by the row's `user_id`. -/
def repFold {E : Type} (uid : E → Nat) (upd : RepAgg → E → RepAgg)
    (l : List E) (acc : List RepAgg) : List RepAgg :=
  l.foldl
    (fun acc e =>
      if acc.any (fun a => a.user_id == uid e) then
        acc.map (fun a => if a.user_id == uid e then upd a e else a)
      else acc ++ [upd (freshRepAgg (uid e)) e])
    acc

/-- The aggregation loops of `buildTopReporters`: all address reports, then
all keyword reports, grouped by `user_id`. -/
def aggReporters (addrs : List ReportedAddress) (kws : List ReportedKeyword) :
    List RepAgg :=
  repFold (·.user_id) updateRepKw kws
    (repFold (·.user_id) updateRepAddr addrs [])

/-- One emitted reporter leaderboard row (`AutoBlockTopReporter`). -/
structure TopReporter where
  user_id : Nat
  reportedAddresses : Nat
  reportedKeywords : Nat
  zeroBlockReports : Nat
  totalReports : Nat
  blocksFromAddresses : Nat
  blocksFromKeywords : Nat
  totalBlocks : Nat
  deriving DecidableEq

/-- The reporter leaderboard row of one aggregate. -/
def toTopReporter (a : RepAgg) : TopReporter where
  user_id := a.user_id
  reportedAddresses := a.reportedAddresses
  reportedKeywords := a.reportedKeywords
  zeroBlockReports := a.zeroBlockReports
  totalReports := a.reportedAddresses + a.reportedKeywords
  blocksFromAddresses := a.blocksFromAddresses
  blocksFromKeywords := a.blocksFromKeywords
  totalBlocks := a.blocksFromAddresses + a.blocksFromKeywords

/-- The `buildTopReporters` comparator: total blocks descending, then total
reports descending, then `b.user_id - a.user_id` — the reporter id
**descending**. -/
def cmpReporter (a b : TopReporter) : Int :=
  if b.totalBlocks ≠ a.totalBlocks then (b.totalBlocks : Int) - a.totalBlocks
  else if b.totalReports ≠ a.totalReports then
    (b.totalReports : Int) - a.totalReports
  else (b.user_id : Int) - a.user_id

/-- The sort relation induced by the reporter comparator. -/
def repLe (a b : TopReporter) : Prop := cmpReporter a b ≤ 0

instance : DecidableRel repLe := fun a b => by
  unfold repLe; infer_instance

/-- `buildTopReporters`: aggregate, build rows, sort, truncate to 10. -/
def buildTopReporters (addrs : List ReportedAddress)
    (kws : List ReportedKeyword) : List TopReporter :=
  (((aggReporters addrs kws).map toTopReporter).insertionSort repLe).take 10

/-- Modelled from the claim's words: a reporter comparator whose final
tie-break is the group key (`user_id`) **ascending**, to be compared with
the source's `cmpReporter`. -/
def cmpReporterClaimed (a b : TopReporter) : Int :=
  if b.totalBlocks ≠ a.totalBlocks then (b.totalBlocks : Int) - a.totalBlocks
  else if b.totalReports ≠ a.totalReports then
    (b.totalReports : Int) - a.totalReports
  else (a.user_id : Int) - b.user_id

/-- The sort relation of the claimed comparator. -/
def repLeClaimed (a b : TopReporter) : Prop := cmpReporterClaimed a b ≤ 0

instance : DecidableRel repLeClaimed := fun a b => by
  unfold repLeClaimed; infer_instance

/-- The reporter leaderboard as the claim describes it. -/
def buildTopReportersClaimed (addrs : List ReportedAddress)
    (kws : List ReportedKeyword) : List TopReporter :=
  (((aggReporters addrs kws).map toTopReporter).insertionSort repLeClaimed).take 10

/-- C4 counterexample.  First: two reporters tied on blocks and reports
come out in **descending** `user_id` order, not the ascending group-key
order the claim states for the top-N builders.  Second: the address
tie-break is locale collation, which need not distinguish distinct groups —
under the admissible collation `lcLen` (total and transitive, see
`lcLen_total` and `lcLen_trans`), two distinct addresses tied on blocks,
reports and collation come out in input order, so `buildTopAddresses` on a
permutation of the same records yields a different leaderboard: the result
is not deterministic for any input as claimed. -/
theorem c4_counterexample :
    (buildTopReporters [⟨1, "a", 5⟩, ⟨2, "b", 5⟩] []).map (·.user_id) = [2, 1]
    ∧ buildTopReporters [⟨1, "a", 5⟩, ⟨2, "b", 5⟩] []
      ≠ buildTopReportersClaimed [⟨1, "a", 5⟩, ⟨2, "b", 5⟩] []
    ∧ (buildTopAddresses lcLen [⟨1, "b", 3⟩, ⟨2, "a", 3⟩]).map (·.address)
        = ["b", "a"]
    ∧ (buildTopAddresses lcLen [⟨2, "a", 3⟩, ⟨1, "b", 3⟩]).map (·.address)
        = ["a", "b"]
    ∧ buildTopAddresses lcLen [⟨1, "b", 3⟩, ⟨2, "a", 3⟩]
      ≠ buildTopAddresses lcLen [⟨2, "a", 3⟩, ⟨1, "b", 3⟩] := by
  refine ⟨by decide, by decide, by decide, by decide, by decide⟩

/-- `lcLen` is total, as ECMA-402 requires of a collator comparison. -/
theorem lcLen_total (x y : String) : lcLen x y ≤ 0 ∨ lcLen y x ≤ 0 := by
  unfold lcLen
  omega

/-- `lcLen` is transitive, as ECMA-402 requires of a collator comparison. -/
theorem lcLen_trans (x y z : String) (h1 : lcLen x y ≤ 0)
    (h2 : lcLen y z ≤ 0) : lcLen x z ≤ 0 := by
  unfold lcLen at h1 h2 ⊢
  omega

/-- Two sorted lists that are permutations of each other and whose elements
are pairwise distinguishable by the (total pre-)order are equal. -/
theorem sorted_perm_eq {α : Type} {r : α → α → Prop} :
    ∀ {l₁ l₂ : List α}, l₁.Perm l₂ → l₁.Sorted r → l₂.Sorted r →
      l₁.Pairwise (fun a b => r a b → r b a → a = b) → l₁ = l₂ := by
  intro l₁
  induction l₁ with
  | nil =>
      intro l₂ hp _ _ _
      exact hp.nil_eq
  | cons a t ih =>
      intro l₂ hp hs₁ hs₂ hd
      cases l₂ with
      | nil => exact absurd hp.eq_nil (by simp)
      | cons b t₂ =>
          have hab : a = b := by
            by_cases h : a = b
            · exact h
            · have hbt : b ∈ t := by
                rcases List.mem_cons.mp
                    (hp.mem_iff.mpr (List.mem_cons_self b t₂)) with h' | h'
                · exact absurd h'.symm h
                · exact h'
              have hat : a ∈ t₂ := by
                rcases List.mem_cons.mp
                    (hp.mem_iff.mp (List.mem_cons_self a t)) with h' | h'
                · exact absurd h' h
                · exact h'
              have hrab : r a b := List.rel_of_sorted_cons hs₁ b hbt
              have hrba : r b a := List.rel_of_sorted_cons hs₂ a hat
              exact (List.pairwise_cons.mp hd).1 b hbt hrab hrba
          subst hab
          exact congrArg (a :: ·)
            (ih hp.cons_inv hs₁.of_cons hs₂.of_cons
              (List.pairwise_cons.mp hd).2)

/-- Semantics of the `buildTopAddresses` comparator: `a` sorts no later
than `b` exactly when `a` has strictly more blocks, or equal blocks and
strictly more reports, or equal blocks and reports and an address the
collation places no later. -/
theorem addrLe_iff (lc : String → String → Int) (a b : TopAddress) :
    addrLe lc a b ↔ b.blocks < a.blocks
      ∨ (b.blocks = a.blocks ∧ b.reports < a.reports)
      ∨ (b.blocks = a.blocks ∧ b.reports = a.reports
          ∧ lc a.address b.address ≤ 0) := by
  unfold addrLe cmpAddr
  by_cases h1 : b.blocks ≠ a.blocks
  · rw [if_pos h1]
    constructor
    · intro h; left; omega
    · rintro (h | ⟨he, _⟩ | ⟨he, _, _⟩)
      · omega
      · exact absurd he h1
      · exact absurd he h1
  · push_neg at h1
    rw [if_neg (by omega)]
    by_cases h2 : b.reports ≠ a.reports
    · rw [if_pos h2]
      constructor
      · intro h; right; left; exact ⟨h1, by omega⟩
      · rintro (h | ⟨_, hr⟩ | ⟨_, he, _⟩)
        · omega
        · omega
        · exact absurd he h2
    · push_neg at h2
      rw [if_neg (by omega)]
      constructor
      · intro h
        exact Or.inr (Or.inr ⟨h1, h2, h⟩)
      · rintro (h | ⟨_, hr⟩ | ⟨_, _, h⟩)
        · omega
        · omega
        · exact h

/-- Semantics of the `buildTopReporters` comparator: the final tie-break is
the reporter id descending. -/
theorem repLe_iff (a b : TopReporter) :
    repLe a b ↔ b.totalBlocks < a.totalBlocks
      ∨ (b.totalBlocks = a.totalBlocks ∧ b.totalReports < a.totalReports)
      ∨ (b.totalBlocks = a.totalBlocks ∧ b.totalReports = a.totalReports
          ∧ b.user_id ≤ a.user_id) := by
  unfold repLe cmpReporter
  by_cases h1 : b.totalBlocks ≠ a.totalBlocks
  · rw [if_pos h1]
    constructor
    · intro h; left; omega
    · rintro (h | ⟨he, _⟩ | ⟨he, _, _⟩)
      · omega
      · exact absurd he h1
      · exact absurd he h1
  · push_neg at h1
    rw [if_neg (by omega)]
    by_cases h2 : b.totalReports ≠ a.totalReports
    · rw [if_pos h2]
      constructor
      · intro h; right; left; exact ⟨h1, by omega⟩
      · rintro (h | ⟨_, hr⟩ | ⟨_, he, _⟩)
        · omega
        · omega
        · exact absurd he h2
    · push_neg at h2
      rw [if_neg (by omega)]
      constructor
      · intro h; right; right; exact ⟨h1, h2, by omega⟩
      · rintro (h | ⟨_, hr⟩ | ⟨_, _, h⟩)
        · omega
        · omega
        · omega

/-- When the collation is total, the address comparator is total. -/
theorem addrLe_total (lc : String → String → Int)
    (hlc : ∀ x y, lc x y ≤ 0 ∨ lc y x ≤ 0) (a b : TopAddress) :
    addrLe lc a b ∨ addrLe lc b a := by
  rw [addrLe_iff, addrLe_iff]
  rcases lt_trichotomy a.blocks b.blocks with h | h | h
  · right; left; omega
  · rcases lt_trichotomy a.reports b.reports with h' | h' | h'
    · right; right; left; omega
    · rcases hlc a.address b.address with hs | hs
      · left; right; right; exact ⟨h.symm, h'.symm, hs⟩
      · right; right; right; exact ⟨h, h', hs⟩
    · left; right; left; omega
  · left; left; omega

/-- When the collation is transitive, the address comparator is
transitive. -/
theorem addrLe_trans (lc : String → String → Int)
    (hlc : ∀ x y z, lc x y ≤ 0 → lc y z ≤ 0 → lc x z ≤ 0)
    (a b c : TopAddress) (hab : addrLe lc a b) (hbc : addrLe lc b c) :
    addrLe lc a c := by
  rw [addrLe_iff] at hab hbc ⊢
  rcases hab with h | ⟨e1, h⟩ | ⟨e1, e2, h⟩ <;>
    rcases hbc with h' | ⟨e1', h'⟩ | ⟨e1', e2', h'⟩
  · left; omega
  · left; omega
  · left; omega
  · left; omega
  · right; left; omega
  · right; left; omega
  · left; omega
  · right; left; omega
  · right; right
    exact ⟨by omega, by omega, hlc _ _ _ h h'⟩

/-- The code-point collation is total. -/
theorem lcCodePoint_total (x y : String) :
    lcCodePoint x y ≤ 0 ∨ lcCodePoint y x ≤ 0 := by
  unfold lcCodePoint
  rcases h : listCmp x.data y.data with _ | _ | _
  · left; simp [ordInt]
  · left; simp [ordInt]
  · right
    rw [listCmp_swap, h]
    simp [ordInt, Ordering.swap]

/-- The code-point collation is transitive. -/
theorem lcCodePoint_trans (x y z : String) (h1 : lcCodePoint x y ≤ 0)
    (h2 : lcCodePoint y z ≤ 0) : lcCodePoint x z ≤ 0 := by
  unfold lcCodePoint at h1 h2 ⊢
  have hxy : listCmp x.data y.data ≠ .gt := by
    intro h
    rw [h] at h1
    simp [ordInt] at h1
  have hyz : listCmp y.data z.data ≠ .gt := by
    intro h
    rw [h] at h2
    simp [ordInt] at h2
  have := listCmp_trans x.data y.data z.data hxy hyz
  rcases h : listCmp x.data z.data with _ | _ | _
  · simp [ordInt]
  · simp [ordInt]
  · exact absurd h this

/-- The code-point collation distinguishes any two distinct strings. -/
theorem lcCodePoint_antisymm (x y : String) (h1 : lcCodePoint x y ≤ 0)
    (h2 : lcCodePoint y x ≤ 0) : x = y := by
  unfold lcCodePoint at h1 h2
  rw [listCmp_swap] at h2
  rcases h : listCmp x.data y.data with _ | _ | _
  · rw [h] at h2
    simp [ordInt, Ordering.swap] at h2
  · exact String.ext ((listCmp_eq_iff x.data y.data).mp h)
  · rw [h] at h1
    simp [ordInt] at h1

instance : IsTotal TopReporter repLe :=
  ⟨fun a b => by
    rw [repLe_iff, repLe_iff]
    omega⟩

instance : IsTrans TopReporter repLe :=
  ⟨fun a b c hab hbc => by
    rw [repLe_iff] at hab hbc ⊢
    omega⟩

/-- Invariant of the address aggregation: keys are pairwise distinct and
every aggregate's key is the lower-cased display address. -/
def AddrInv (acc : List AddrAgg) : Prop :=
  acc.Pairwise (fun x y => x.key ≠ y.key)
  ∧ ∀ a ∈ acc, jsToLower a.address = a.key

/-- One aggregation step preserves the invariant. -/
theorem addrStep_inv (acc : List AddrAgg) (e : ReportedAddress)
    (h : AddrInv acc) : AddrInv (addrStep acc e) := by
  obtain ⟨h1, h2⟩ := h
  unfold addrStep
  by_cases hany : (acc.any (fun a => a.key == jsToLower e.address)) = true
  · rw [if_pos hany]
    have hkey : ∀ a : AddrAgg,
        (if a.key == jsToLower e.address then updateAddrAgg a e else a).key
          = a.key := by
      intro a
      by_cases hk : (a.key == jsToLower e.address) = true
      · rw [if_pos hk]; rfl
      · rw [if_neg hk]
    have haddr : ∀ a : AddrAgg,
        (if a.key == jsToLower e.address then updateAddrAgg a e else a).address
          = a.address := by
      intro a
      by_cases hk : (a.key == jsToLower e.address) = true
      · rw [if_pos hk]; rfl
      · rw [if_neg hk]
    constructor
    · rw [List.pairwise_map]
      refine h1.imp ?_
      intro a b hne
      rw [hkey, hkey]
      exact hne
    · intro a' ha'
      rw [List.mem_map] at ha'
      obtain ⟨a, ha, rfl⟩ := ha'
      rw [hkey, haddr]
      exact h2 a ha
  · rw [if_neg hany]
    simp only [List.any_eq_true, beq_iff_eq, not_exists, not_and] at hany
    constructor
    · rw [List.pairwise_append]
      refine ⟨h1, List.pairwise_singleton _ _, ?_⟩
      intro a ha b hb
      rw [List.mem_singleton] at hb
      subst hb
      exact hany a ha
    · intro a ha
      rcases List.mem_append.mp ha with ha | ha
      · exact h2 a ha
      · rw [List.mem_singleton] at ha
        subst ha
        rfl

/-- The address aggregation satisfies the invariant. -/
theorem aggAddresses_inv (l : List ReportedAddress) :
    AddrInv (aggAddresses l) := by
  suffices h : ∀ acc, AddrInv acc → AddrInv (l.foldl addrStep acc) from
    h [] ⟨List.Pairwise.nil, by simp⟩
  induction l with
  | nil => exact fun acc h => h
  | cons e rest ih =>
      intro acc h
      rw [List.foldl_cons]
      exact ih _ (addrStep_inv acc e h)

/-- The emitted address leaderboard rows have pairwise distinct display
addresses. -/
theorem aggAddresses_addr_distinct (l : List ReportedAddress) :
    ((aggAddresses l).map toTopAddress).Pairwise
      (fun x y => x.address ≠ y.address) := by
  obtain ⟨h1, h2⟩ := aggAddresses_inv l
  rw [List.pairwise_map]
  refine List.Pairwise.imp_of_mem ?_ h1
  intro a b ha hb hne heq
  exact hne (by rw [← h2 a ha, ← h2 b hb]; exact congrArg jsToLower heq)

/-- One reporter fold pass keeps user ids pairwise distinct, for any update
function that does not change the id. -/
theorem repFold_pairwise {E : Type} (uid : E → Nat) (upd : RepAgg → E → RepAgg)
    (hupd : ∀ a e, (upd a e).user_id = a.user_id) (l : List E) :
    ∀ acc, acc.Pairwise (fun x y => x.user_id ≠ y.user_id) →
      (repFold uid upd l acc).Pairwise (fun x y => x.user_id ≠ y.user_id) := by
  induction l with
  | nil => exact fun acc h => h
  | cons e rest ih =>
      intro acc h
      simp only [repFold, List.foldl_cons] at ih ⊢
      by_cases hany : (acc.any (fun a => a.user_id == uid e)) = true
      · rw [if_pos hany]
        refine ih _ ?_
        rw [List.pairwise_map]
        refine h.imp ?_
        intro a b hne
        have hk : ∀ a : RepAgg,
            (if a.user_id == uid e then upd a e else a).user_id = a.user_id := by
          intro a
          by_cases hc : (a.user_id == uid e) = true
          · rw [if_pos hc, hupd]
          · rw [if_neg hc]
        rw [hk, hk]
        exact hne
      · rw [if_neg hany]
        simp only [List.any_eq_true, beq_iff_eq, not_exists, not_and] at hany
        refine ih _ ?_
        rw [List.pairwise_append]
        refine ⟨h, List.pairwise_singleton _ _, ?_⟩
        intro a ha b hb
        rw [List.mem_singleton] at hb
        subst hb
        rw [hupd]
        exact hany a ha

/-- The emitted reporter leaderboard rows have pairwise distinct ids. -/
theorem aggReporters_uid_distinct (addrs : List ReportedAddress)
    (kws : List ReportedKeyword) :
    ((aggReporters addrs kws).map toTopReporter).Pairwise
      (fun x y => x.user_id ≠ y.user_id) := by
  have h := repFold_pairwise (·.user_id) updateRepKw (fun a e => rfl) kws
    (repFold (·.user_id) updateRepAddr addrs [])
    (repFold_pairwise (·.user_id) updateRepAddr (fun a e => rfl) addrs []
      List.Pairwise.nil)
  rw [List.pairwise_map]
  exact h.imp (fun hne => hne)

/-- C4, amended (leaderboard ordering and determinism): `buildTopAddresses`
sorts by blocks descending, then reports descending, then the default-locale
comparison of the display addresses ascending, and truncates to the first
10; `buildTopReporters` sorts by total blocks descending, then total
reports descending, but its final tie-break is the reporter id
**descending** (`b.user_id - a.user_id`), not ascending as claimed.  The
reporter comparator's final tie-break distinguishes any two distinct
groups, so the reporter leaderboard is a total order and sorting any
permutation of the aggregate rows yields the identical list — deterministic
for any input, including ties.  The address comparator is only as strong as
the external collation: it is total and transitive whenever the collation
is (as ECMA-402 requires), and sorting is permutation-deterministic
whenever the collation additionally distinguishes any two distinct strings
— a property default-locale collation does not guarantee
(`c4_counterexample` exhibits the resulting order-dependence at collation
ties). -/
theorem c4_leaderboards_total_order_deterministic :
    (∀ (lc : String → String → Int) (a b : TopAddress),
      addrLe lc a b ↔ b.blocks < a.blocks
      ∨ (b.blocks = a.blocks ∧ b.reports < a.reports)
      ∨ (b.blocks = a.blocks ∧ b.reports = a.reports
          ∧ lc a.address b.address ≤ 0))
    ∧ (∀ a b : TopReporter, repLe a b ↔ b.totalBlocks < a.totalBlocks
      ∨ (b.totalBlocks = a.totalBlocks ∧ b.totalReports < a.totalReports)
      ∨ (b.totalBlocks = a.totalBlocks ∧ b.totalReports = a.totalReports
          ∧ b.user_id ≤ a.user_id))
    ∧ (∀ (lc : String → String → Int) (l : List ReportedAddress),
        buildTopAddresses lc l
          = (((aggAddresses l).map toTopAddress).insertionSort
              (addrLe lc)).take 10
        ∧ ((∀ x y, lc x y ≤ 0 ∨ lc y x ≤ 0) →
           (∀ x y z, lc x y ≤ 0 → lc y z ≤ 0 → lc x z ≤ 0) →
           (((aggAddresses l).map toTopAddress).insertionSort
              (addrLe lc)).Sorted (addrLe lc)
           ∧ ((∀ x y, lc x y ≤ 0 → lc y x ≤ 0 → x = y) →
              ∀ es : List TopAddress,
                es.Perm ((aggAddresses l).map toTopAddress) →
                es.insertionSort (addrLe lc)
                  = ((aggAddresses l).map toTopAddress).insertionSort
                      (addrLe lc))))
    ∧ (∀ (addrs : List ReportedAddress) (kws : List ReportedKeyword),
        buildTopReporters addrs kws
          = (((aggReporters addrs kws).map toTopReporter).insertionSort
              repLe).take 10
        ∧ (((aggReporters addrs kws).map toTopReporter).insertionSort
            repLe).Sorted repLe
        ∧ ∀ es : List TopReporter,
            es.Perm ((aggReporters addrs kws).map toTopReporter) →
            es.insertionSort repLe
              = ((aggReporters addrs kws).map toTopReporter).insertionSort
                  repLe) := by
  refine ⟨addrLe_iff, repLe_iff, fun lc l => ⟨rfl, fun htot htrans => ?_⟩,
    fun addrs kws => ⟨rfl, List.sorted_insertionSort _ _,
    fun es hperm => ?_⟩⟩
  · haveI : IsTotal TopAddress (addrLe lc) := ⟨addrLe_total lc htot⟩
    haveI : IsTrans TopAddress (addrLe lc) := ⟨addrLe_trans lc htrans⟩
    refine ⟨List.sorted_insertionSort _ _, fun hanti es hperm => ?_⟩
    have hperm2 : (es.insertionSort (addrLe lc)).Perm
        (((aggAddresses l).map toTopAddress).insertionSort (addrLe lc)) :=
      (List.perm_insertionSort (addrLe lc) es).trans
        (hperm.trans (List.perm_insertionSort (addrLe lc) _).symm)
    have hdist1 : (es.insertionSort (addrLe lc)).Pairwise
        (fun x y => x.address ≠ y.address) :=
      ((((List.perm_insertionSort (addrLe lc) es).trans hperm)).pairwise_iff
        (fun h e => h e.symm)).mpr (aggAddresses_addr_distinct l)
    refine sorted_perm_eq hperm2 (List.sorted_insertionSort _ _)
      (List.sorted_insertionSort _ _) (hdist1.imp ?_)
    intro a b hne hab hba
    rw [addrLe_iff] at hab hba
    rcases hab with h | ⟨e1, h⟩ | ⟨e1, e2, h⟩ <;>
      rcases hba with h' | ⟨e1', h'⟩ | ⟨e1', e2', h'⟩
    · exact (show False by omega).elim
    · exact (show False by omega).elim
    · exact (show False by omega).elim
    · exact (show False by omega).elim
    · exact (show False by omega).elim
    · exact (show False by omega).elim
    · exact (show False by omega).elim
    · exact (show False by omega).elim
    · exact (hne (hanti _ _ h h')).elim
  · have hperm2 : (es.insertionSort repLe).Perm
        (((aggReporters addrs kws).map toTopReporter).insertionSort repLe) :=
      (List.perm_insertionSort repLe es).trans
        (hperm.trans (List.perm_insertionSort repLe _).symm)
    have hdist1 : (es.insertionSort repLe).Pairwise
        (fun x y => x.user_id ≠ y.user_id) :=
      ((((List.perm_insertionSort repLe es).trans hperm)).pairwise_iff
        (fun h e => h e.symm)).mpr (aggReporters_uid_distinct addrs kws)
    refine sorted_perm_eq hperm2 (List.sorted_insertionSort _ _)
      (List.sorted_insertionSort _ _) (hdist1.imp ?_)
    intro a b hne hab hba
    exfalso
    rw [repLe_iff] at hab hba
    rcases hab with h | ⟨e1, h⟩ | ⟨e1, e2, h⟩ <;>
      rcases hba with h' | ⟨e1', h'⟩ | ⟨e1', e2', h'⟩ <;> omega

/-- Closed witness for `c4_leaderboards_total_order_deterministic`: under
the code-point collation — total, transitive and distinguishing, so the
conditional hypotheses hold — sorting the reversed aggregate rows returns
the same ranked list for both builders, and on the spec's tied-blocks
scenario the addresses tie-break alphabetically. -/
theorem c4_witness :
    (((aggAddresses [⟨1, "b", 3⟩, ⟨2, "a", 3⟩]).map
        toTopAddress).reverse).insertionSort (addrLe lcCodePoint)
      = ((aggAddresses [⟨1, "b", 3⟩, ⟨2, "a", 3⟩]).map
          toTopAddress).insertionSort (addrLe lcCodePoint)
    ∧ (buildTopAddresses lcCodePoint [⟨1, "b", 3⟩, ⟨2, "a", 3⟩]).map
        (·.address) = ["a", "b"]
    ∧ (((aggReporters [⟨1, "a", 5⟩, ⟨2, "b", 5⟩] []).map
        toTopReporter).reverse).insertionSort repLe
      = ((aggReporters [⟨1, "a", 5⟩, ⟨2, "b", 5⟩] []).map
          toTopReporter).insertionSort repLe := by
  refine ⟨?_, by decide, ?_⟩
  · exact (((c4_leaderboards_total_order_deterministic.2.2.1 lcCodePoint
      [⟨1, "b", 3⟩, ⟨2, "a", 3⟩]).2 lcCodePoint_total lcCodePoint_trans).2
      lcCodePoint_antisymm) _ (List.reverse_perm _)
  · exact (c4_leaderboards_total_order_deterministic.2.2.2
      [⟨1, "a", 5⟩, ⟨2, "b", 5⟩] []).2.2 _ (List.reverse_perm _)

end IlmStats
